/-
  Verification of the jobly job-ingestion pipeline specification.

  Shallow embedding of the pure core of the repository:
    - app/utils/filter.py   (score_job)
    - app/utils/hashing.py  (extract_redirect_url, canonicalise_url, url_hash,
                             detect_ats_from_url)
    - app/utils/config.py   (FilterConfig defaults)
    - app/gmail/parser.py   (the candidate post-processing loop of
                             parse_email_html)
    - app/sources/github_readme.py (the row loop of fetch_github_jobs)
    - app/cli/main.py       (_store_jobs, the queue command's commit sequence)

  Python strings are modelled by Lean String/List Char.  Case mapping
  (str.lower) and whitespace (str.strip) are modelled at the ASCII level;
  theorems whose faithfulness depends on this carry explicit ASCII
  hypotheses.  Python floats are modelled by rationals: every constant in
  filter.py is a short decimal, all sums stay well away from binary-rounding
  boundaries, and the final result is rounded to 3 decimal places in both
  worlds, so the rational model agrees with the float computation on the
  values this development considers.
-/
import Mathlib

set_option maxRecDepth 8000

namespace Jobly

/-! ## ASCII string helpers (models of Python str methods) -/

/-- Model of Python str.lower on a single character (ASCII case mapping). -/
def pyCharLower (c : Char) : Char :=
  if 'A' ≤ c ∧ c ≤ 'Z' then Char.ofNat (c.toNat + 32) else c

/-- Model of Python str.lower on a character list. -/
def pyLowerL (s : List Char) : List Char := s.map pyCharLower

/-- Model of Python str.lower. -/
def pyLower (s : String) : String := ⟨pyLowerL s.data⟩

/-- Does list l start with list p? (Helper for substring containment.) -/
def startsWithL : List Char → List Char → Bool
  | _, [] => true
  | [], _ :: _ => false
  | c :: cs, p :: ps => c = p && startsWithL cs ps

/-- Model of the Python expression needle in hay (substring containment). -/
def containsL (hay needle : List Char) : Bool :=
  match hay with
  | [] => startsWithL [] needle
  | _ :: rest => startsWithL hay needle || containsL rest needle

/-- Model of the Python expression needle in hay on String. -/
def pyIn (needle hay : String) : Bool := containsL hay.data needle.data

/-- Model of Python "x or d" for an optional string: None and "" give d. -/
def pyOrDefault (o : Option String) (d : String) : String :=
  match o with
  | none => d
  | some s => if s = "" then d else s

/-- Model of Python sep.join (separator between elements). -/
def joinSep (sep : String) : List String → String
  | [] => ""
  | [r] => r
  | r :: rs => r ++ sep ++ joinSep sep rs

/-! ## FilterConfig (app/utils/config.py) and score_job (app/utils/filter.py) -/

/-- FilterConfig from app/utils/config.py (the fields used by score_job). -/
structure FilterConfig where
  min_score : ℚ
  title_keywords : List String
  preferred_ats : List String
  preferred_locations : List String
  excluded_locations : List String
deriving DecidableEq

/-- The dataclass defaults of FilterConfig in app/utils/config.py. -/
def defaultFilterConfig : FilterConfig where
  min_score := 3/10
  title_keywords := ["intern", "internship", "swe", "software engineer",
    "backend", "platform", "infra", "infrastructure",
    "data", "distributed", "database", "systems"]
  preferred_ats := ["ashby", "greenhouse", "lever"]
  preferred_locations := []
  excluded_locations := []

/-- ScoringResult from app/utils/filter.py. -/
structure ScoringResult where
  score : ℚ
  reason : String
  should_queue : Bool
deriving DecidableEq

/-- The _ATS_BOOST dict of app/utils/filter.py; each boost is paired with
the string that the f-string format "+{boost:.0%}" renders for it. -/
def atsBoost (a : String) : Option (ℚ × String) :=
  if a = "ashby" then some (1/5, "20%")
  else if a = "greenhouse" then some (1/10, "10%")
  else if a = "lever" then some (1/10, "10%")
  else none

/-- Model of Python round(x, 3): round to 3 decimal places.  (Mathlib round
is round-half-up while Python uses round-half-even on binary floats; no value
computed by score_job from the constants in filter.py lands on a half at the
third decimal, so the two agree on this code.) -/
def round3 (q : ℚ) : ℚ := (round (1000 * q) : ℚ) / 1000

/-- The title-keyword loop of score_job (filter.py lines 47-50): keywords
whose lowercased text occurs in the lowercased title, in configuration
order. -/
def matchedKeywords (cfg : FilterConfig) (title_lower : String) : List String :=
  cfg.title_keywords.filter (fun kw => pyIn (pyLower kw) title_lower)

/-- The keyword-scoring branch of score_job (filter.py lines 52-58):
score contribution and the reason fragments so far. -/
def keywordPart (cfg : FilterConfig) (title_lower : String) : ℚ × List String :=
  let matched := matchedKeywords cfg title_lower
  if matched.isEmpty then
    (0, ["no title keyword match"])
  else
    (min (1/2) (7/20 + (1/20) * ((matched.length : ℚ) - 1)),
     ["title matches: " ++ joinSep ", " (matched.take 3)])

/-- The ATS-preference step of score_job (filter.py lines 61-64). -/
def atsPart (ats : String) (acc : ℚ × List String) : ℚ × List String :=
  match atsBoost ats with
  | some (b, pc) =>
      (acc.1 + b, acc.2 ++ ["preferred ATS (" ++ ats ++ " +" ++ pc ++ ")"])
  | none => acc

/-- The excluded-location loop of score_job (filter.py lines 67-76): the
first configured excluded location whose lowercased text occurs in the
lowercased location, if any. -/
def excludedHit (cfg : FilterConfig) (location_lower : String) : Option String :=
  cfg.excluded_locations.find? (fun excl => pyIn (pyLower excl) location_lower)

/-- The preferred-location step of score_job (filter.py lines 78-88). -/
def preferredPart (cfg : FilterConfig) (location_lower : String)
    (acc : ℚ × List String) : ℚ × List String :=
  if ¬ cfg.preferred_locations.isEmpty then
    match cfg.preferred_locations.find?
        (fun pref => pyIn (pyLower pref) location_lower || pyIn "remote" location_lower) with
    | some pref => (acc.1 + 1/20, acc.2 ++ ["preferred location (" ++ pref ++ ")"])
    | none => acc
  else if pyIn "remote" location_lower then
    (acc.1 + 1/20, acc.2 ++ ["remote"])
  else acc

/-- score_job from app/utils/filter.py lines 28-98, translated clause by
clause.  The company argument is accepted and unused, as in the source. -/
def score_job (title company : String) (location : Option String)
    (ats_type : Option String) (cfg : FilterConfig) : ScoringResult :=
  let _ := company
  let title_lower := pyLower title
  let location_lower := pyLower (pyOrDefault location "")
  let ats := pyLower (pyOrDefault ats_type "unknown")
  let acc1 := keywordPart cfg title_lower
  let acc2 := atsPart ats acc1
  match excludedHit cfg location_lower with
  | some excl =>
      ⟨0, joinSep "; " (acc2.2 ++ ["excluded location: " ++ excl]), false⟩
  | none =>
    let acc3 := preferredPart cfg location_lower acc2
    let score : ℚ := min 1 (round3 acc3.1)
    ⟨score, joinSep "; " acc3.2, decide (cfg.min_score ≤ score)⟩

/-- The score/reason accumulator of score_job just before the final cap:
keyword step, then ATS step, then preferred-location step. -/
def finalAcc (cfg : FilterConfig) (title_lower ats location_lower : String) :
    ℚ × List String :=
  preferredPart cfg location_lower (atsPart ats (keywordPart cfg title_lower))

/-- The pre-excluded-check accumulator of score_job (keyword + ATS steps). -/
def midAcc (cfg : FilterConfig) (title_lower ats : String) : ℚ × List String :=
  atsPart ats (keywordPart cfg title_lower)

/-- Witness payload for claim C5: a config with one excluded location. -/
def c5Config : FilterConfig :=
  { defaultFilterConfig with excluded_locations := ["sf"] }

/-- Configuration exhibiting the C6 counterexample: zero threshold plus an
excluded location. -/
def c6Config : FilterConfig where
  min_score := 0
  title_keywords := []
  preferred_ats := []
  preferred_locations := []
  excluded_locations := ["sf"]

/-! ## Job store and the queue command (app/models/schema.py, app/cli/main.py) -/

/-- JobStatus from app/models/schema.py. -/
inductive JobStatus where
  | discovered
  | queued
  | filtered_out
  | skipped
deriving DecidableEq

/-- A JobPost row as touched by the queue command, from schema.py JobPost
(identity/bookkeeping columns that the scoring pass never reads are
omitted). -/
structure JobRow where
  title : String
  company : String
  location : Option String
  ats_type : Option String
  fit_score : ℚ
  fit_reason : String
  status : JobStatus
deriving DecidableEq

/-- The scoring loop of the queue command, main.py lines 445-459: every
discovered job gets fit_score and fit_reason written; statuses are not
touched.  The session.commit() on line 461 makes exactly this store state
durable. -/
def queueScoreCommit (cfg : FilterConfig) (store : List JobRow) : List JobRow :=
  store.map fun j =>
    if j.status = JobStatus.discovered then
      let r := score_job j.title j.company j.location j.ats_type cfg
      { j with fit_score := r.score, fit_reason := r.reason }
    else j

/-- The status-update phase of the queue command, main.py lines 492-520:
on top of the scored state, discovered jobs move to queued or filtered_out
according to should_queue.  Committed on line 520, and reached only when the
review table is non-empty and the user confirms. -/
def queueStatusCommit (cfg : FilterConfig) (store : List JobRow) : List JobRow :=
  store.map fun j =>
    if j.status = JobStatus.discovered then
      let r := score_job j.title j.company j.location j.ats_type cfg
      { j with fit_score := r.score, fit_reason := r.reason,
               status := if r.should_queue then JobStatus.queued else JobStatus.filtered_out }
    else j

/-- The sequence of committed store states produced by one run of the queue
command (main.py lines 417-525) on a given store, where confirmed says
whether the user answers yes at the confirmation prompt.  Early returns
(no discovered jobs; nothing passes the threshold; user cancels) cut the
sequence short exactly as in the source. -/
def queueCommand (cfg : FilterConfig) (store : List JobRow) (confirmed : Bool) :
    List (List JobRow) :=
  let discovered := store.filter (fun j => j.status = JobStatus.discovered)
  if discovered.isEmpty then [store]
  else
    let s1 := queueScoreCommit cfg store
    let to_queue := discovered.filter
      (fun j => (score_job j.title j.company j.location j.ats_type cfg).should_queue)
    if to_queue.isEmpty then [store, s1]
    else if confirmed then [store, s1, queueStatusCommit cfg s1]
    else [store, s1]

/-- The concrete discovered job used against claim C2. -/
def c2Job : JobRow where
  title := "Software Engineer Intern"
  company := "Acme"
  location := none
  ats_type := some "ashby"
  fit_score := 0
  fit_reason := ""
  status := JobStatus.discovered

/-! ## _store_jobs (app/cli/main.py lines 90-128) -/

/-- ParsedJob from app/gmail/parser.py (the discovered_at timestamp is
omitted: no claim reads it). -/
structure ParsedJobL where
  company : String
  title : String
  url : String
  url_hash : String
  ats_type : String
  location : Option String
  source_email_id : Option String
deriving DecidableEq

/-- A stored JobPost row as created by _store_jobs (main.py lines 115-125,
schema.py JobPost; scoring columns keep their defaults). -/
structure StoredJob where
  url_hash : String
  company : String
  title : String
  location : Option String
  url : String
  ats_type : String
  source_email_id : Option String
  status : JobStatus
deriving DecidableEq

/-- The JobPost row built on main.py lines 115-125: discovered status. -/
def mkStoredJob (job : ParsedJobL) (sid : Option String) : StoredJob where
  url_hash := job.url_hash
  company := job.company
  title := job.title
  location := job.location
  url := job.url
  ats_type := job.ats_type
  source_email_id := sid
  status := JobStatus.discovered

/-- One iteration of the _store_jobs loop (main.py lines 102-127): the
SELECT by url_hash (autoflushed, so it sees rows added earlier in the same
call) decides between a silent skip and appending a new row. -/
def insertIfNew (sid : Option String) (store : List StoredJob) (job : ParsedJobL) :
    List StoredJob :=
  if store.any (fun r => r.url_hash = job.url_hash) then store
  else store ++ [mkStoredJob job sid]

/-- _store_jobs (main.py lines 90-128) with dry_run=False: fold the insert
over the parsed jobs in order. -/
def storeJobs (store : List StoredJob) (jobs : List ParsedJobL) (sid : Option String) :
    List StoredJob :=
  jobs.foldl (insertIfNew sid) store

/-- A concrete parsed job used in the C4 witness. -/
def c4Job : ParsedJobL where
  company := "Acme"
  title := "Software Engineer Intern"
  url := "https://x.com/a"
  url_hash := "h1"
  ats_type := "unknown"
  location := none
  source_email_id := none

/-- A second parsed job with the same url_hash as c4Job (the same canonical
job rediscovered, possibly with different display fields). -/
def c4JobDup : ParsedJobL where
  company := "Acme Inc"
  title := "SWE Intern"
  url := "https://x.com/a"
  url_hash := "h1"
  ats_type := "unknown"
  location := some "Remote"
  source_email_id := some "mail-2"

/-! ## URL canonicalisation and hashing (app/utils/hashing.py)

The source calls urllib.parse (urlparse, parse_qs, urlencode, urlunparse)
and hashlib.sha256; those library functions are embedded below following
CPython's implementation (ASCII-level case mapping and whitespace, as noted
at the top of this file). -/

/-- Python str.strip()'s whitespace test, restricted to ASCII: space, tab,
LF, VT, FF, CR and the C0 separators 0x1c-0x1f. -/
def pyIsSpace (c : Char) : Bool :=
  c = ' ' || c = '\t' || c = '\n' || c.toNat = 11 || c.toNat = 12 || c = '\r' ||
  c.toNat = 28 || c.toNat = 29 || c.toNat = 30 || c.toNat = 31

/-- Model of Python str.strip() on a character list. -/
def pyStripL (s : List Char) : List Char :=
  ((s.dropWhile pyIsSpace).reverse.dropWhile pyIsSpace).reverse

/-- Split a list at the first occurrence of sep: l = a ++ sep :: b with
sep not in a.  none when sep does not occur (models str.split(sep, 1)). -/
def splitFirst (sep : Char) : List Char → Option (List Char × List Char)
  | [] => none
  | c :: rest =>
      if c = sep then some ([], rest)
      else
        match splitFirst sep rest with
        | none => none
        | some (a, b) => some (c :: a, b)

/-- Split a list at the last occurrence of sep: l = a ++ sep :: b with
sep not in b. -/
def splitLastChar (sep : Char) (l : List Char) : Option (List Char × List Char) :=
  match splitFirst sep l.reverse with
  | none => none
  | some (a, b) => some (b.reverse, a.reverse)

/-- Model of Python str.split(sep) (single-character separator). -/
def splitChar (sep : Char) : List Char → List (List Char)
  | [] => [[]]
  | c :: rest =>
      if c = sep then [] :: splitChar sep rest
      else
        match splitChar sep rest with
        | [] => [[c]]
        | p :: ps => (c :: p) :: ps

def isAsciiAlpha (c : Char) : Bool :=
  ('a' ≤ c && c ≤ 'z') || ('A' ≤ c && c ≤ 'Z')

def isAsciiDigit (c : Char) : Bool := '0' ≤ c && c ≤ '9'

/-- urllib.parse scheme_chars: letters, digits, and "+-.". -/
def isSchemeChar (c : Char) : Bool :=
  isAsciiAlpha c || isAsciiDigit c || c = '+' || c = '-' || c = '.'

/-- The scheme validity check of urlsplit: first character an ASCII letter
and every character a scheme character. -/
def validScheme (s : List Char) : Bool :=
  match s with
  | [] => false
  | c :: _ => isAsciiAlpha c && s.all isSchemeChar

/-- A character ending the netloc scan of _splitnetloc. -/
def netlocEnd (c : Char) : Bool := c = '/' || c = '?' || c = '#'

/-- The result of urllib.parse.urlsplit. -/
structure UrlSplitResult where
  scheme : List Char
  netloc : List Char
  path : List Char
  query : List Char
  fragment : List Char
deriving DecidableEq

/-- urllib.parse.urlsplit (CPython): strip leading C0-control-or-space,
remove tab/CR/LF anywhere, detect and lowercase a valid scheme, take the
netloc after "//" up to the first of "/?#", split the fragment at the first
'#', then the query at the first '?'.  (The ValueError raised for unmatched
netloc brackets is not modelled; theorems about arbitrary URLs carry
bracket-freeness hypotheses.) -/
def pyUrlsplit (url : List Char) : UrlSplitResult :=
  let url := url.dropWhile (fun c => c.toNat ≤ 32)
  let url := url.filter (fun c => ¬ (c = '\t' || c = '\r' || c = '\n'))
  let sp :=
    match splitFirst ':' url with
    | none => (([] : List Char), url)
    | some (pre, post) =>
        if pre ≠ [] ∧ validScheme pre then (pyLowerL pre, post) else ([], url)
  let scheme := sp.1
  let rest := sp.2
  let np :=
    if rest.take 2 = ['/', '/'] then
      ((rest.drop 2).takeWhile (fun c => ¬ netlocEnd c),
       (rest.drop 2).dropWhile (fun c => ¬ netlocEnd c))
    else ([], rest)
  let netloc := np.1
  let rest2 := np.2
  let fp :=
    match splitFirst '#' rest2 with
    | none => (rest2, ([] : List Char))
    | some (a, b) => (a, b)
  let qp :=
    match splitFirst '?' fp.1 with
    | none => (fp.1, ([] : List Char))
    | some (a, b) => (a, b)
  ⟨scheme, netloc, qp.1, qp.2, fp.2⟩

/-- The schemes for which urlparse splits path parameters (uses_params). -/
def usesParams : List String :=
  ["", "ftp", "hdl", "prospero", "http", "imap", "https", "shttp", "rtsp",
   "rtsps", "rtspu", "sip", "sips", "mms", "sftp", "tel"]

/-- The schemes of urllib.parse.uses_netloc. -/
def usesNetloc : List String :=
  ["", "ftp", "http", "gopher", "nntp", "telnet", "imap", "wais", "file",
   "mms", "https", "shttp", "snews", "prospero", "rtsp", "rtsps", "rtspu",
   "rsync", "svn", "svn+ssh", "sftp", "nfs", "git", "git+ssh", "ws", "wss"]

/-- urllib.parse._splitparams: split ";params" off the last path segment. -/
def pySplitparams (p : List Char) : List Char × List Char :=
  if p.contains '/' then
    match splitLastChar '/' p with
    | some (pre, lastseg) =>
        match splitFirst ';' lastseg with
        | some (a, b) => (pre ++ '/' :: a, b)
        | none => (p, [])
    | none => (p, [])
  else
    match splitFirst ';' p with
    | some (a, b) => (a, b)
    | none => (p, [])

/-- The result of urllib.parse.urlparse. -/
structure UrlParseResult where
  scheme : List Char
  netloc : List Char
  path : List Char
  params : List Char
  query : List Char
  fragment : List Char
deriving DecidableEq

/-- urllib.parse.urlparse: urlsplit plus parameter splitting for schemes in
uses_params when the path contains ';'. -/
def pyUrlparse (url : List Char) : UrlParseResult :=
  let s := pyUrlsplit url
  if (⟨s.scheme⟩ : String) ∈ usesParams ∧ s.path.contains ';' then
    let pp := pySplitparams s.path
    ⟨s.scheme, s.netloc, pp.1, pp.2, s.query, s.fragment⟩
  else ⟨s.scheme, s.netloc, s.path, [], s.query, s.fragment⟩

/-! ### Percent-coding (urllib.parse.quote_plus / unquote_plus) -/

def hexVal (c : Char) : Option Nat :=
  if '0' ≤ c ∧ c ≤ '9' then some (c.toNat - '0'.toNat)
  else if 'a' ≤ c ∧ c ≤ 'f' then some (c.toNat - 'a'.toNat + 10)
  else if 'A' ≤ c ∧ c ≤ 'F' then some (c.toNat - 'A'.toNat + 10)
  else none

/-- Uppercase hex digit, as emitted by urllib.parse.quote. -/
def hexUpper (n : Nat) : Char :=
  if n < 10 then Char.ofNat ('0'.toNat + n) else Char.ofNat ('A'.toNat + n - 10)

/-- UTF-8 encoding of one character (Python str.encode per character). -/
def utf8EncodeChar (c : Char) : List Nat :=
  let n := c.toNat
  if n < 128 then [n]
  else if n < 2048 then [192 + n / 64, 128 + n % 64]
  else if n < 65536 then [224 + n / 4096, 128 + (n / 64) % 64, 128 + n % 64]
  else [240 + n / 262144, 128 + (n / 4096) % 64, 128 + (n / 64) % 64, 128 + n % 64]

def utf8Encode (s : List Char) : List Nat := s.flatMap utf8EncodeChar

/-- The U+FFFD replacement character used by bytes.decode(errors="replace"). -/
def replChar : Char := Char.ofNat 65533

def isContByte (b : Nat) : Bool := 128 ≤ b && b ≤ 191

/-- Allowed second byte of a 3-byte UTF-8 sequence (excludes overlong forms
and surrogates). -/
def valid3Second (b b2 : Nat) : Bool :=
  if b = 224 then 160 ≤ b2 && b2 ≤ 191
  else if b = 237 then 128 ≤ b2 && b2 ≤ 159
  else isContByte b2

/-- Allowed second byte of a 4-byte UTF-8 sequence. -/
def valid4Second (b b2 : Nat) : Bool :=
  if b = 240 then 144 ≤ b2 && b2 ≤ 191
  else if b = 244 then 128 ≤ b2 && b2 ≤ 143
  else isContByte b2

/-- UTF-8 decoding with replacement on malformed input, modelling
bytes.decode("utf-8", errors="replace") closely enough that both agree on
every byte string made of valid encodings.  Structural recursion over a
fuel argument (any fuel at least the list length gives the decoding). -/
def utf8DecodeF : Nat → List Nat → List Char
  | 0, _ => []
  | _, [] => []
  | fuel + 1, b :: bs =>
    if b ≤ 127 then Char.ofNat b :: utf8DecodeF fuel bs
    else if 194 ≤ b ∧ b ≤ 223 then
      match bs with
      | b2 :: bs2 =>
          if isContByte b2 then
            Char.ofNat ((b - 192) * 64 + (b2 - 128)) :: utf8DecodeF fuel bs2
          else replChar :: utf8DecodeF fuel (b2 :: bs2)
      | [] => [replChar]
    else if 224 ≤ b ∧ b ≤ 239 then
      match bs with
      | b2 :: b3 :: bs3 =>
          if valid3Second b b2 && isContByte b3 then
            Char.ofNat ((b - 224) * 4096 + (b2 - 128) * 64 + (b3 - 128)) :: utf8DecodeF fuel bs3
          else replChar :: utf8DecodeF fuel (b2 :: b3 :: bs3)
      | _ => replChar :: utf8DecodeF fuel bs
    else if 240 ≤ b ∧ b ≤ 244 then
      match bs with
      | b2 :: b3 :: b4 :: bs4 =>
          if valid4Second b b2 && isContByte b3 && isContByte b4 then
            Char.ofNat ((b - 240) * 262144 + (b2 - 128) * 4096 + (b3 - 128) * 64 + (b4 - 128))
              :: utf8DecodeF fuel bs4
          else replChar :: utf8DecodeF fuel (b2 :: b3 :: b4 :: bs4)
      | _ => replChar :: utf8DecodeF fuel bs
    else replChar :: utf8DecodeF fuel bs

/-- UTF-8 decoding of a byte list (fuel instantiated to the length). -/
def utf8Decode (l : List Nat) : List Char := utf8DecodeF l.length l

/-- urllib.parse's always-safe characters: letters, digits, "_.-~". -/
def alwaysSafe (c : Char) : Bool :=
  isAsciiAlpha c || isAsciiDigit c || c = '_' || c = '.' || c = '-' || c = '~'

def quoteByte (b : Nat) : List Char := ['%', hexUpper (b / 16), hexUpper (b % 16)]

/-- quote_plus on one character: space to '+', safe characters unchanged,
everything else percent-encoded byte by byte (UTF-8). -/
def quotePlusChar (c : Char) : List Char :=
  if c = ' ' then ['+']
  else if alwaysSafe c then [c]
  else (utf8EncodeChar c).flatMap quoteByte

/-- urllib.parse.quote_plus with safe="". -/
def quotePlus (s : List Char) : List Char := s.flatMap quotePlusChar

/-- The '+'-to-space replacement of unquote_plus. -/
def trPlus (c : Char) : Char := if c = '+' then ' ' else c

/-- The scanning loop of unquote: acc holds the reversed bytes of the
current maximal run of %XX escapes, which is UTF-8-decoded when the run
ends.  Literal characters pass through.  Fuel-driven structural recursion;
each step consumes one fuel and at least one character, so fuel equal to
the input length always suffices. -/
def unqRunF : Nat → List Nat → List Char → List Char
  | 0, acc, _ => utf8Decode acc.reverse
  | _ + 1, acc, [] => utf8Decode acc.reverse
  | fuel + 1, acc, c :: rest =>
      if c = '%' then
        match rest with
        | h1 :: h2 :: rest2 =>
            match hexVal h1, hexVal h2 with
            | some a, some b => unqRunF fuel ((16 * a + b) :: acc) rest2
            | _, _ => utf8Decode acc.reverse ++ '%' :: unqRunF fuel [] rest
        | _ => utf8Decode acc.reverse ++ '%' :: unqRunF fuel [] rest
      else utf8Decode acc.reverse ++ c :: unqRunF fuel [] rest

/-- urllib.parse.unquote_plus: '+' to space, then percent-decoding with
errors="replace".  (CPython decodes each maximal ASCII chunk's bytes in one
go; for byte runs that are valid UTF-8 — the only case the theorems below
traverse — the two agree.) -/
def pyUnquotePlus (s : List Char) : List Char :=
  unqRunF s.length [] (s.map trPlus)

/-! ### parse_qs / urlencode (urllib.parse) -/

/-- urllib.parse.parse_qsl with keep_blank_values=False: split on '&',
drop empty chunks, drop chunks without '=', drop pairs with empty value,
unquote_plus names and values. -/
def parseQsl (qs : List Char) : List (List Char × List Char) :=
  (splitChar '&' qs).filterMap fun pair =>
    if pair.isEmpty then none
    else
      match splitFirst '=' pair with
      | none => none
      | some (name, value) =>
          if value.isEmpty then none
          else some (pyUnquotePlus name, pyUnquotePlus value)

/-- Add one (key, value) pair to an insertion-ordered multi-dict, as a
Python dict of lists does. -/
def addPair (d : List (List Char × List (List Char))) (k : List Char) (v : List Char) :
    List (List Char × List (List Char)) :=
  match d with
  | [] => [(k, [v])]
  | (k', vs) :: rest =>
      if k' = k then (k', vs ++ [v]) :: rest else (k', vs) :: addPair rest k v

/-- urllib.parse.parse_qs with keep_blank_values=False. -/
def parseQs (qs : List Char) : List (List Char × List (List Char)) :=
  (parseQsl qs).foldl (fun d kv => addPair d kv.1 kv.2) []

/-- Join character lists with a single separator character. -/
def joinCharSep (sep : Char) : List (List Char) → List Char
  | [] => []
  | [x] => x
  | x :: xs => x ++ sep :: joinCharSep sep xs

/-- urllib.parse.urlencode with doseq=True over a dict of value lists:
quote_plus each key and value, join "k=v" items with '&'. -/
def urlencodePairs (d : List (List Char × List (List Char))) : List Char :=
  joinCharSep '&' (d.flatMap fun kv => kv.2.map fun v => quotePlus kv.1 ++ '=' :: quotePlus v)

/-! ### hashing.py: redirect extraction, canonicalisation, hashing -/

/-- The _TRACKING_PARAMS frozenset of hashing.py. -/
def trackingParams : List String :=
  ["utm_source", "utm_medium", "utm_campaign", "utm_term", "utm_content",
   "ref", "referrer", "source", "gh_src", "lever-origin", "lever-source",
   "ashby_source", "ems", "sid", "cid", "gclid", "fbclid", "msclkid"]

/-- The _REDIRECT_PARAMS tuple of hashing.py, in order. -/
def redirectParams : List String :=
  ["url", "link", "target", "redirect", "dest", "destination"]

/-- Look a key up in a parse_qs result. -/
def lookupQ (qs : List (List Char × List (List Char))) (k : List Char) :
    Option (List (List Char)) :=
  (qs.find? (fun kv => kv.1 = k)).map (fun kv => kv.2)

/-- The loop of extract_redirect_url: the first redirect parameter present
in the query whose first value starts with "http". -/
def findRedirect (qs : List (List Char × List (List Char))) :
    List String → Option (List Char)
  | [] => none
  | p :: ps =>
      match lookupQ qs p.data with
      | some (v :: _) =>
          if startsWithL v "http".data then some v else findRedirect qs ps
      | some [] => findRedirect qs ps
      | none => findRedirect qs ps

/-- extract_redirect_url from hashing.py lines 23-36. -/
def extractRedirectUrlL (url : List Char) : List Char :=
  match findRedirect (parseQs (pyUrlparse url).query) redirectParams with
  | some candidate => candidate
  | none => url

/-- Python str.rstrip("/"). -/
def rstripSlash (p : List Char) : List Char :=
  (p.reverse.dropWhile (fun c => c = '/')).reverse

/-- urllib.parse.urlunsplit (CPython 3.11+): the "//" is emitted when there
is a netloc, or when the scheme uses a netloc and the path does not already
start with "//". -/
def pyUrlunsplit (scheme netloc url query fragment : List Char) : List Char :=
  let url :=
    if netloc ≠ [] ∨ (scheme ≠ [] ∧ (⟨scheme⟩ : String) ∈ usesNetloc ∧ url.take 2 ≠ ['/', '/']) then
      '/' :: '/' :: (netloc ++ (if url ≠ [] ∧ url.take 1 ≠ ['/'] then '/' :: url else url))
    else url
  let url := if scheme ≠ [] then scheme ++ ':' :: url else url
  let url := if query ≠ [] then url ++ '?' :: query else url
  if fragment ≠ [] then url ++ '#' :: fragment else url

/-- urllib.parse.urlunparse. -/
def pyUrlunparse (scheme netloc url params query fragment : List Char) : List Char :=
  pyUrlunsplit scheme netloc (if params ≠ [] then url ++ ';' :: params else url)
    query fragment

/-- canonicalise_url from hashing.py lines 39-67, on character lists. -/
def canonicaliseUrlL (url : List Char) : List Char :=
  let url := extractRedirectUrlL (pyStripL url)
  let parsed := pyUrlparse url
  let qs := parseQs parsed.query
  let clean := qs.filter (fun kv => ¬ (⟨pyLowerL kv.1⟩ : String) ∈ trackingParams)
  let clean_query := urlencodePairs clean
  let path := rstripSlash parsed.path
  let path := if path = [] then ['/'] else path
  pyUrlunparse (pyLowerL parsed.scheme) (pyLowerL parsed.netloc) path [] clean_query []

/-- canonicalise_url on String. -/
def canonicalise_url (s : String) : String := ⟨canonicaliseUrlL s.data⟩

/-- extract_redirect_url on String. -/
def extract_redirect_url (s : String) : String := ⟨extractRedirectUrlL s.data⟩

/-! ### SHA-256 (hashlib.sha256, FIPS 180-4) -/

/-- Truncate to a 32-bit word. -/
def w32 (n : Nat) : Nat := n % 4294967296

/-- Rotate a 32-bit word right by k. -/
def rotr32 (k x : Nat) : Nat := w32 ((x >>> k) ||| (x <<< (32 - k)))

def shaCh (x y z : Nat) : Nat := (x &&& y) ^^^ ((x ^^^ 4294967295) &&& z)

def shaMaj (x y z : Nat) : Nat := (x &&& y) ^^^ (x &&& z) ^^^ (y &&& z)

def bigSigma0 (x : Nat) : Nat := rotr32 2 x ^^^ rotr32 13 x ^^^ rotr32 22 x

def bigSigma1 (x : Nat) : Nat := rotr32 6 x ^^^ rotr32 11 x ^^^ rotr32 25 x

def smallSigma0 (x : Nat) : Nat := rotr32 7 x ^^^ rotr32 18 x ^^^ (x >>> 3)

def smallSigma1 (x : Nat) : Nat := rotr32 17 x ^^^ rotr32 19 x ^^^ (x >>> 10)

def sha256K : List Nat :=
  [1116352408, 1899447441, 3049323471, 3921009573, 961987163, 1508970993, 2453635748, 2870763221,
   3624381080, 310598401, 607225278, 1426881987, 1925078388, 2162078206, 2614888103, 3248222580,
   3835390401, 4022224774, 264347078, 604807628, 770255983, 1249150122, 1555081692, 1996064986,
   2554220882, 2821834349, 2952996808, 3210313671, 3336571891, 3584528711, 113926993, 338241895,
   666307205, 773529912, 1294757372, 1396182291, 1695183700, 1986661051, 2177026350, 2456956037,
   2730485921, 2820302411, 3259730800, 3345764771, 3516065817, 3600352804, 4094571909, 275423344,
   430227734, 506948616, 659060556, 883997877, 958139571, 1322822218, 1537002063, 1747873779,
   1955562222, 2024104815, 2227730452, 2361852424, 2428436474, 2756734187, 3204031479, 3329325298]

def sha256H0 : List Nat :=
  [1779033703, 3144134277, 1013904242, 2773480762, 1359893119, 2600822924, 528734635, 1541459225]

/-- Big-endian 8-byte encoding of the message bit length. -/
def bigEndian8 (n : Nat) : List Nat :=
  [(n >>> 56) % 256, (n >>> 48) % 256, (n >>> 40) % 256, (n >>> 32) % 256,
   (n >>> 24) % 256, (n >>> 16) % 256, (n >>> 8) % 256, n % 256]

/-- SHA-256 padding: 0x80, zeros to 56 mod 64, 8-byte big-endian bit length. -/
def sha256Pad (msg : List Nat) : List Nat :=
  let len := msg.length
  let k := (119 - (len % 64)) % 64
  msg ++ 128 :: List.replicate k 0 ++ bigEndian8 (8 * len)

/-- Extend the 16 message words by one schedule word. -/
def scheduleWord (w : List Nat) : Nat :=
  let n := w.length
  w32 (smallSigma1 (w.getD (n - 2) 0) + w.getD (n - 7) 0 +
       smallSigma0 (w.getD (n - 15) 0) + w.getD (n - 16) 0)

/-- Extend the message schedule by k words. -/
def extendSchedule (w : List Nat) : Nat → List Nat
  | 0 => w
  | k + 1 => extendSchedule (w ++ [scheduleWord w]) k

/-- One round of the SHA-256 compression function. -/
def compressStep (w : List Nat) (st : List Nat) (t : Nat) : List Nat :=
  match st with
  | [a, b, c, d, e, f, g, h] =>
      let t1 := w32 (h + bigSigma1 e + shaCh e f g + sha256K.getD t 0 + w.getD t 0)
      let t2 := w32 (bigSigma0 a + shaMaj a b c)
      [w32 (t1 + t2), a, b, c, w32 (d + t1), e, f, g]
  | _ => st

/-- Group 4 bytes into big-endian 32-bit words. -/
def bytesToWords : List Nat → List Nat
  | b0 :: b1 :: b2 :: b3 :: rest =>
      (((b0 * 256 + b1) * 256 + b2) * 256 + b3) :: bytesToWords rest
  | _ => []

/-- Split into 64-byte blocks (fuel-driven structural recursion; the fuel
is instantiated to the length, which always suffices). -/
def chunks64F : Nat → List Nat → List (List Nat)
  | 0, _ => []
  | _, [] => []
  | fuel + 1, b :: rest => (b :: rest).take 64 :: chunks64F fuel ((b :: rest).drop 64)

def chunks64 (l : List Nat) : List (List Nat) := chunks64F l.length l

/-- Process one 64-byte block. -/
def sha256Block (h : List Nat) (blockWords : List Nat) : List Nat :=
  let w := extendSchedule blockWords 48
  let st := (List.range 64).foldl (compressStep w) h
  List.zipWith (fun x y => w32 (x + y)) h st

/-- SHA-256 of a byte list, as 32 digest bytes. -/
def sha256Bytes (msg : List Nat) : List Nat :=
  let hh := (chunks64 (sha256Pad msg)).foldl (fun h blk => sha256Block h (bytesToWords blk)) sha256H0
  hh.flatMap fun wd => [(wd >>> 24) % 256, (wd >>> 16) % 256, (wd >>> 8) % 256, wd % 256]

def hexLowerDigit (n : Nat) : Char :=
  if n < 10 then Char.ofNat (48 + n) else Char.ofNat (87 + n)

def byteToHex (b : Nat) : List Char := [hexLowerDigit (b / 16), hexLowerDigit (b % 16)]

/-- hashlib.sha256(...).hexdigest() over a byte list. -/
def sha256Hex (msg : List Nat) : String := ⟨(sha256Bytes msg).flatMap byteToHex⟩

/-- url_hash from hashing.py lines 70-73: SHA-256 of the UTF-8 bytes of the
canonical URL, lowercase hex. -/
def url_hash (s : String) : String := sha256Hex (utf8Encode (canonicaliseUrlL s.data))

/-- detect_ats_from_url from hashing.py lines 76-102. -/
def detect_ats_from_url (url : String) : String :=
  let u := pyLower url
  if pyIn "ashbyhq.com" u || pyIn "jobs.ashby" u then "ashby"
  else if pyIn "greenhouse.io" u || pyIn "grnh.se" u || pyIn "gh_jid=" u then "greenhouse"
  else if pyIn "lever.co" u then "lever"
  else if pyIn "myworkdayjobs.com" u || pyIn "workday.com" u then "workday"
  else if pyIn "smartrecruiters.com" u then "smartrecruiters"
  else if pyIn "icims.com" u || pyIn "icims=1" u then "icims"
  else if pyIn "taleo.net" u then "taleo"
  else if pyIn "workable.com" u then "workable"
  else if pyIn "breezy.hr" u then "breezy"
  else if pyIn "simplify.jobs" u then "simplify"
  else "unknown"

/-! ### gmail/parser.py: parse_email_html extraction loop -/

/-- One raw candidate produced by _extract_candidates: a
(company, title, url, location) tuple. -/
structure EmailCandidate where
  company : String
  title : String
  url : String
  location : Option String
deriving DecidableEq

/-- The fields of a ParsedJob that the extraction loops populate
(parser.py's ParsedJob, source_email_id and discovered_at omitted). -/
structure ParsedJobOut where
  company : String
  title : String
  url : String
  url_hash : String
  ats_type : String
  location : Option String
deriving DecidableEq

/-- The candidate loop of parse_email_html (parser.py lines 77-96): drop
candidates with an empty url or title, canonicalise, hash, skip hashes
already seen in this call, then emit with the canonical URL and its ATS. -/
def emailLoop : List EmailCandidate → List String → List ParsedJobOut
  | [], _ => []
  | c :: rest, seen =>
      if c.url = "" ∨ c.title = "" then emailLoop rest seen
      else
        let canon := canonicalise_url c.url
        let h := url_hash canon
        if h ∈ seen then emailLoop rest seen
        else
          ⟨c.company, c.title, canon, h, detect_ats_from_url canon, c.location⟩ ::
            emailLoop rest (h :: seen)

/-- parse_email_html on the candidate list, starting from an empty
seen-hash set. -/
def parse_email_html (cands : List EmailCandidate) : List ParsedJobOut :=
  emailLoop cands []

/-! ### sources/github_readme.py: fetch_github_jobs row loop -/

/-- The _SKIPPED_ATS set of github_readme.py. -/
def skippedAts : List String := ["workday", "taleo"]

/-- The codepoint ranges of _EMOJI_RE. -/
def isEmojiChar (c : Char) : Bool :=
  (0x1F600 ≤ c.toNat && c.toNat ≤ 0x1F64F) ||
  (0x1F300 ≤ c.toNat && c.toNat ≤ 0x1F5FF) ||
  (0x1F680 ≤ c.toNat && c.toNat ≤ 0x1F6FF) ||
  (0x1F1E0 ≤ c.toNat && c.toNat ≤ 0x1F1FF) ||
  (0x2702 ≤ c.toNat && c.toNat ≤ 0x27B0) ||
  (0x24C2 ≤ c.toNat && c.toNat ≤ 0x1F251) ||
  (0x1F900 ≤ c.toNat && c.toNat ≤ 0x1F9FF) ||
  (0x1FA00 ≤ c.toNat && c.toNat ≤ 0x1FA6F) ||
  (0x1FA70 ≤ c.toNat && c.toNat ≤ 0x1FAFF)

/-- _strip_emoji: remove emoji-range characters, then str.strip(). -/
def stripEmoji (s : String) : String :=
  ⟨pyStripL (s.data.filter (fun c => ¬ isEmojiChar c))⟩

/-- The cell data of one README table row that fetch_github_jobs reads:
whether the row has at least four cells, the company cell's text and its
link text if any, the role and location cell texts, whether the
application cell shows the lock glyph, and the href of its Apply link. -/
structure FeedRow where
  cells_ok : Bool
  company_cell : String
  company_link : Option String
  role_cell : String
  location_cell : String
  locked : Bool
  apply_url : Option String
deriving DecidableEq

/-- _get_apply_url: None when the cell is locked, else the Apply href. -/
def getApplyUrl (r : FeedRow) : Option String :=
  if r.locked then none else r.apply_url

/-- The current-company update: rows without the continuation glyph set it
from the company cell (link text if a link is present), emoji-stripped. -/
def rowCompany (cur : Option String) (r : FeedRow) : Option String :=
  if pyIn "↳" r.company_cell then cur
  else some (stripEmoji (r.company_link.getD r.company_cell))

/-- The per-row checks of fetch_github_jobs after the company step: Apply
URL present and nonempty, emoji-stripped role nonempty and matching a
lowercased keyword, ATS not in _SKIPPED_ATS; the emitted job carries the
canonical URL and its hash. -/
def rowJob (kws : List String) (comp : String) (r : FeedRow) : Option ParsedJobOut :=
  match getApplyUrl r with
  | none => none
  | some url =>
      if url = "" then none
      else
        let role := stripEmoji r.role_cell
        if role = "" then none
        else if kws.any (fun kw => pyIn kw (pyLower role)) = false then none
        else
          let ats := detect_ats_from_url url
          if ats ∈ skippedAts then none
          else
            let canon := canonicalise_url url
            let lloc := stripEmoji r.location_cell
            some ⟨comp, role, canon, url_hash canon, ats,
              if lloc = "" then none else some lloc⟩

/-- The row loop of fetch_github_jobs (github_readme.py lines 113-171):
skip short rows, track the current company (continue when it is None or
empty), run the per-row checks, and dedup on the hash within the call. -/
def feedLoop (kws : List String) : List FeedRow → Option String → List String → List ParsedJobOut
  | [], _, _ => []
  | r :: rest, cur, seen =>
      if r.cells_ok = false then feedLoop kws rest cur seen
      else
        match rowCompany cur r with
        | none => feedLoop kws rest none seen
        | some comp =>
            if comp = "" then feedLoop kws rest (some comp) seen
            else
              match rowJob kws comp r with
              | none => feedLoop kws rest (some comp) seen
              | some job =>
                  if job.url_hash ∈ seen then feedLoop kws rest (some comp) seen
                  else job :: feedLoop kws rest (some comp) (job.url_hash :: seen)

/-- fetch_github_jobs on the row list of the README table, with the
configuration's keywords lowercased up front as in the source. -/
def fetch_github_jobs (cfg : FilterConfig) (rows : List FeedRow) : List ParsedJobOut :=
  feedLoop (cfg.title_keywords.map pyLower) rows none []

/-- A concrete feed row used to instantiate the fetch_github_jobs theorem. -/
def c10Row : FeedRow where
  cells_ok := true
  company_cell := "Acme"
  company_link := none
  role_cell := "Software Engineer Intern"
  location_cell := "NYC"
  locked := false
  apply_url := some "https://jobs.ashbyhq.com/a"

/-- The job fetch_github_jobs emits for c10Row under the defaults. -/
def c10Job : ParsedJobOut where
  company := "Acme"
  title := "Software Engineer Intern"
  url := canonicalise_url "https://jobs.ashbyhq.com/a"
  url_hash := url_hash (canonicalise_url "https://jobs.ashbyhq.com/a")
  ats_type := "ashby"
  location := some "NYC"

/-- Two email candidates whose URLs differ only in a tracking parameter,
used to instantiate the parse_email_html theorem. -/
def c9CandA : EmailCandidate where
  company := "Acme"
  title := "SWE Intern"
  url := "https://jobs.ashbyhq.com/a?utm_source=email"
  location := none

/-- Second candidate, colliding with c9CandA after canonicalisation. -/
def c9CandB : EmailCandidate where
  company := "Acme"
  title := "SWE Intern"
  url := "https://jobs.ashbyhq.com/a"
  location := none

/-- The job parse_email_html emits for c9CandA, deduplicating c9CandB. -/
def c9Job : ParsedJobOut where
  company := "Acme"
  title := "SWE Intern"
  url := canonicalise_url "https://jobs.ashbyhq.com/a?utm_source=email"
  url_hash := url_hash (canonicalise_url "https://jobs.ashbyhq.com/a?utm_source=email")
  ats_type := detect_ats_from_url (canonicalise_url "https://jobs.ashbyhq.com/a?utm_source=email")
  location := none

/-! ### Character classes for the canonicalisation theorems -/

/-- Lowercase host characters: a-z, digits, '.', '-'. -/
def hostChar (c : Char) : Bool :=
  (97 ≤ c.toNat && c.toNat ≤ 122) || (48 ≤ c.toNat && c.toNat ≤ 57) ||
  c.toNat = 46 || c.toNat = 45

/-- Plain lowercase path characters: a-z, digits, '/', '-', '_', '.'. -/
def pathChar (c : Char) : Bool :=
  (97 ≤ c.toNat && c.toNat ≤ 122) || (48 ≤ c.toNat && c.toNat ≤ 57) ||
  c.toNat = 47 || c.toNat = 45 || c.toNat = 95 || c.toNat = 46

/-! ### Evaluation lemmas for score_job -/

theorem score_job_excl_eq {title company : String} {location ats_type : Option String}
    {cfg : FilterConfig} {e : String}
    (h : excludedHit cfg (pyLower (pyOrDefault location "")) = some e) :
    score_job title company location ats_type cfg =
      ⟨0, joinSep "; " ((midAcc cfg (pyLower title)
            (pyLower (pyOrDefault ats_type "unknown"))).2 ++ ["excluded location: " ++ e]),
       false⟩ := by
  simp only [score_job, midAcc]
  rw [h]

theorem score_job_no_excl_eq {title company : String} {location ats_type : Option String}
    {cfg : FilterConfig}
    (h : excludedHit cfg (pyLower (pyOrDefault location "")) = none) :
    score_job title company location ats_type cfg =
      ⟨min 1 (round3 (finalAcc cfg (pyLower title)
          (pyLower (pyOrDefault ats_type "unknown")) (pyLower (pyOrDefault location ""))).1),
       joinSep "; " (finalAcc cfg (pyLower title)
          (pyLower (pyOrDefault ats_type "unknown")) (pyLower (pyOrDefault location ""))).2,
       decide (cfg.min_score ≤ min 1 (round3 (finalAcc cfg (pyLower title)
          (pyLower (pyOrDefault ats_type "unknown")) (pyLower (pyOrDefault location ""))).1))⟩ := by
  simp only [score_job, finalAcc]
  rw [h]

theorem keywordPart_nonneg (cfg : FilterConfig) (t : String) :
    0 ≤ (keywordPart cfg t).1 := by
  unfold keywordPart
  set m := matchedKeywords cfg t with hm
  by_cases h : m.isEmpty
  · simp [h]
  · simp only [h, if_false, Bool.false_eq_true]
    have hne : m ≠ [] := by
      intro hnil; rw [hnil] at h; simp at h
    have hlen : 1 ≤ m.length := List.length_pos.mpr hne
    have hcast : (1 : ℚ) ≤ (m.length : ℚ) := by exact_mod_cast hlen
    have : (0 : ℚ) ≤ 7/20 + 1/20 * ((m.length : ℚ) - 1) := by nlinarith
    exact le_min (by norm_num) this

theorem atsBoost_nonneg {a : String} {b : ℚ} {pc : String}
    (h : atsBoost a = some (b, pc)) : 0 ≤ b := by
  unfold atsBoost at h
  split_ifs at h <;>
    simp only [Option.some.injEq, Prod.mk.injEq, reduceCtorEq] at h <;>
    first
      | exact h.elim
      | (rw [← h.1]; norm_num)

theorem atsPart_nonneg {ats : String} {acc : ℚ × List String}
    (h : 0 ≤ acc.1) : 0 ≤ (atsPart ats acc).1 := by
  unfold atsPart
  cases hb : atsBoost ats with
  | none => exact h
  | some p =>
      obtain ⟨b, pc⟩ := p
      have := atsBoost_nonneg hb
      simp only
      linarith

theorem preferredPart_nonneg {cfg : FilterConfig} {loc : String} {acc : ℚ × List String}
    (h : 0 ≤ acc.1) : 0 ≤ (preferredPart cfg loc acc).1 := by
  unfold preferredPart
  by_cases h1 : cfg.preferred_locations.isEmpty = true
  · rw [if_neg (by simp [h1])]
    by_cases h2 : pyIn "remote" loc = true
    · rw [if_pos h2]; dsimp only; linarith
    · rw [if_neg h2]; exact h
  · rw [if_pos h1]
    cases hf : cfg.preferred_locations.find?
        (fun pref => pyIn (pyLower pref) loc || pyIn "remote" loc) with
    | none => exact h
    | some p => dsimp only; linarith

theorem round3_nonneg {q : ℚ} (h : 0 ≤ q) : 0 ≤ round3 q := by
  unfold round3
  apply div_nonneg _ (by norm_num)
  have : (0 : ℤ) ≤ round (1000 * q) := by
    rw [round_eq]
    exact Int.le_floor.mpr (by push_cast; linarith)
  exact_mod_cast this

theorem joinSep_append_last (sep : String) (l : List String) (x : String) :
    ∃ p, joinSep sep (l ++ [x]) = p ++ x := by
  induction l with
  | nil => exact ⟨"", by simp [joinSep]⟩
  | cons rhd rtl ih =>
    cases rtl with
    | nil =>
        refine ⟨rhd ++ sep, ?_⟩
        show joinSep sep [rhd, x] = rhd ++ sep ++ x
        rfl
    | cons r2 rtl2 =>
        obtain ⟨p, hp⟩ := ih
        refine ⟨rhd ++ sep ++ p, ?_⟩
        show rhd ++ sep ++ joinSep sep ((r2 :: rtl2) ++ [x]) = rhd ++ sep ++ p ++ x
        rw [hp]
        simp [String.append_assoc]

/-! ### Claims about score_job -/

/-- Claim C8: for every title, company, location (including none/empty),
ats_type (including none) and configuration, score_job returns a score with
0 ≤ score ≤ 1: no contribution is negative and the accumulated score is
rounded to 3 decimals and capped at 1. -/
theorem claim_c8_score_bounded (title company : String)
    (location ats_type : Option String) (cfg : FilterConfig) :
    0 ≤ (score_job title company location ats_type cfg).score ∧
      (score_job title company location ats_type cfg).score ≤ 1 := by
  cases h : excludedHit cfg (pyLower (pyOrDefault location "")) with
  | some e =>
      rw [score_job_excl_eq h]
      exact ⟨le_refl 0, by norm_num⟩
  | none =>
      rw [score_job_no_excl_eq h]
      dsimp only
      constructor
      · refine le_min (by norm_num) (round3_nonneg ?_)
        unfold finalAcc
        exact preferredPart_nonneg (atsPart_nonneg (keywordPart_nonneg cfg _))
      · exact min_le_left _ _

/-- Claim C5: whenever some configured excluded-location substring
(lowercased) occurs in the lowercased location, score_job returns exactly
score 0 with should_queue = false, and the reason ends with
"excluded location: " followed by a matching configured entry, discarding
all keyword and ATS contributions. -/
theorem claim_c5_excluded_location_override (title company : String)
    (location ats_type : Option String) (cfg : FilterConfig)
    (h : ∃ e ∈ cfg.excluded_locations,
        pyIn (pyLower e) (pyLower (pyOrDefault location "")) = true) :
    (score_job title company location ats_type cfg).score = 0 ∧
      (score_job title company location ats_type cfg).should_queue = false ∧
      ∃ e ∈ cfg.excluded_locations,
        pyIn (pyLower e) (pyLower (pyOrDefault location "")) = true ∧
        ∃ p, (score_job title company location ats_type cfg).reason
              = p ++ ("excluded location: " ++ e) := by
  have hsome : (excludedHit cfg (pyLower (pyOrDefault location ""))).isSome = true := by
    rw [excludedHit, List.find?_isSome]
    exact h
  obtain ⟨e, he⟩ := Option.isSome_iff_exists.mp hsome
  have he2 : List.find?
      (fun excl => pyIn (pyLower excl) (pyLower (pyOrDefault location "")))
      cfg.excluded_locations = some e := by
    rw [← he]; rfl
  have hpe := List.find?_some he2
  rw [score_job_excl_eq he]
  dsimp only
  refine ⟨rfl, rfl, e, List.mem_of_find?_eq_some he2, hpe, ?_⟩
  exact joinSep_append_last "; " _ ("excluded location: " ++ e)

/-- Claim C6 (amended): should_queue equals (min_score ≤ score) whenever
min_score is positive or no excluded-location substring matches; the
excluded-location branch returns should_queue = false unconditionally, which
breaks the equivalence only in the degenerate case min_score ≤ 0 with an
excluded-location match. -/
theorem claim_c6_threshold_geq (title company : String)
    (location ats_type : Option String) (cfg : FilterConfig)
    (h : 0 < cfg.min_score ∨ ∀ e ∈ cfg.excluded_locations,
        ¬ pyIn (pyLower e) (pyLower (pyOrDefault location "")) = true) :
    (score_job title company location ats_type cfg).should_queue
      = decide (cfg.min_score ≤ (score_job title company location ats_type cfg).score) := by
  cases hx : excludedHit cfg (pyLower (pyOrDefault location "")) with
  | none => rw [score_job_no_excl_eq hx]
  | some e =>
      have hms : 0 < cfg.min_score := by
        rcases h with h | h
        · exact h
        · exact absurd (List.find?_some hx) (h e (List.mem_of_find?_eq_some hx))
      rw [score_job_excl_eq hx]
      dsimp only
      symm
      rw [decide_eq_false_iff_not]
      exact not_le.mpr hms

/-- Witness for claim C6: at a concrete input with a positive threshold the
equivalence holds. -/
theorem claim_c6_threshold_geq_witness :
    (score_job "Software Engineer Intern" "Acme" none (some "ashby") defaultFilterConfig).should_queue
      = decide (defaultFilterConfig.min_score
          ≤ (score_job "Software Engineer Intern" "Acme" none (some "ashby") defaultFilterConfig).score) :=
  claim_c6_threshold_geq "Software Engineer Intern" "Acme" none (some "ashby")
    defaultFilterConfig (Or.inr (by decide))

/-- Witness for claim C5 at a concrete input: location "SF Bay Area" against
excluded entry "sf". -/
theorem claim_c5_excluded_location_override_witness :
    (∃ e ∈ c5Config.excluded_locations,
        pyIn (pyLower e) (pyLower (pyOrDefault (some "SF Bay Area") "")) = true) ∧
    ((score_job "Software Engineer Intern" "Acme" (some "SF Bay Area") (some "ashby") c5Config).score = 0 ∧
      (score_job "Software Engineer Intern" "Acme" (some "SF Bay Area") (some "ashby") c5Config).should_queue = false ∧
      ∃ e ∈ c5Config.excluded_locations,
        pyIn (pyLower e) (pyLower (pyOrDefault (some "SF Bay Area") "")) = true ∧
        ∃ p, (score_job "Software Engineer Intern" "Acme" (some "SF Bay Area") (some "ashby") c5Config).reason
              = p ++ ("excluded location: " ++ e)) :=
  ⟨by decide,
   claim_c5_excluded_location_override "Software Engineer Intern" "Acme"
     (some "SF Bay Area") (some "ashby") c5Config (by decide)⟩

/-- Counterexample to claim C6 as stated: with min_score = 0 and an
excluded-location match, score_job returns should_queue = false although
score = 0 ≥ min_score. -/
theorem claim_c6_counterexample :
    ¬ ((score_job "x" "y" (some "sf") none c6Config).should_queue
        = decide (c6Config.min_score
            ≤ (score_job "x" "y" (some "sf") none c6Config).score)) := by
  have hx : excludedHit c6Config (pyLower (pyOrDefault (some "sf") "")) = some "sf" := rfl
  rw [score_job_excl_eq hx]
  dsimp only
  have hms : c6Config.min_score = 0 := rfl
  rw [hms, decide_eq_true (le_refl (0 : ℚ))]
  simp

/-! ### Claim C1: the end-to-end default scenario -/

/-- Evaluation of score_job on end-to-end scenario 1 of the spec:
title "Software Engineer Intern", ATS ashby, no location, default config.
Two keywords match ("intern" and "software engineer"), so the keyword
contribution is min(0.50, 0.35 + 0.05) = 0.40 and the total is 0.60. -/
theorem score_job_scenario1_eval :
    score_job "Software Engineer Intern" "Acme" none (some "ashby") defaultFilterConfig
      = ⟨3/5, "title matches: intern, software engineer; preferred ATS (ashby +20%)", true⟩ := by
  have hx : excludedHit defaultFilterConfig (pyLower (pyOrDefault none "")) = none := rfl
  rw [score_job_no_excl_eq hx]
  have hm : matchedKeywords defaultFilterConfig (pyLower "Software Engineer Intern")
      = ["intern", "software engineer"] := by decide
  have h1 : keywordPart defaultFilterConfig (pyLower "Software Engineer Intern")
      = (min (1/2) (7/20 + 1/20 * (((["intern", "software engineer"] : List String).length : ℚ) - 1)),
         ["title matches: intern, software engineer"]) := by
    unfold keywordPart
    rw [hm]
    rfl
  have hfin : finalAcc defaultFilterConfig (pyLower "Software Engineer Intern")
      (pyLower (pyOrDefault (some "ashby") "unknown")) (pyLower (pyOrDefault none ""))
      = (min (1/2) (7/20 + 1/20 * (((["intern", "software engineer"] : List String).length : ℚ) - 1)) + 1/5,
         ["title matches: intern, software engineer", "preferred ATS (ashby +20%)"]) := by
    unfold finalAcc
    rw [h1]
    rfl
  rw [hfin]
  have hsum : min (1/2) (7/20 + 1/20 * (((["intern", "software engineer"] : List String).length : ℚ) - 1)) + 1/5
      = (3 : ℚ)/5 := by
    have hlen : ((["intern", "software engineer"] : List String).length : ℚ) = 2 := by
      norm_num
    rw [hlen]
    rw [show (7:ℚ)/20 + 1/20 * ((2:ℚ) - 1) = 2/5 by norm_num]
    rw [min_eq_right (by norm_num : (2:ℚ)/5 ≤ 1/2)]
    norm_num
  have hscore : min 1 (round3 (min (1/2) (7/20 + 1/20 * (((["intern", "software engineer"] : List String).length : ℚ) - 1)) + 1/5))
      = (3 : ℚ)/5 := by
    rw [hsum]
    rw [round3, show (1000:ℚ) * (3/5) = 600 by norm_num, round_ofNat]
    rw [min_eq_right (by push_cast; norm_num)]
    push_cast
    norm_num
  simp only [ScoringResult.mk.injEq]
  refine ⟨hscore, by decide, ?_⟩
  rw [hscore]
  exact decide_eq_true (by norm_num [defaultFilterConfig])

/-- Counterexample to claim C1 as stated: the end-to-end scenario does not
score 0.55 with the default configuration. -/
theorem claim_c1_counterexample :
    (score_job "Software Engineer Intern" "Acme" none (some "ashby") defaultFilterConfig).score
      ≠ 11/20 := by
  rw [score_job_scenario1_eval]
  norm_num

/-- Claim C1 (amended): the default scenario scores exactly 0.60 — a 0.40
keyword contribution (two keywords match: "intern" and "software engineer")
plus the 0.20 ashby boost — and should_queue = true. -/
theorem claim_c1_default_scenario :
    (score_job "Software Engineer Intern" "Acme" none (some "ashby") defaultFilterConfig).score = 3/5 ∧
    (score_job "Software Engineer Intern" "Acme" none (some "ashby") defaultFilterConfig).reason
      = "title matches: intern, software engineer; preferred ATS (ashby +20%)" ∧
    (score_job "Software Engineer Intern" "Acme" none (some "ashby") defaultFilterConfig).should_queue
      = true := by
  rw [score_job_scenario1_eval]
  exact ⟨rfl, rfl, rfl⟩

/-! ### Claim C2: the queue command's commit sequence -/

/-- Claim C2 fails on the code: running the queue command on a store with
one discovered job and cancelling at the confirmation prompt reaches a
committed store state (the session.commit() on main.py line 461) in which
the job carries a written fit score and fit reason while its status is
still discovered. -/
theorem claim_c2_score_write_not_atomic :
    ∃ s ∈ queueCommand defaultFilterConfig [c2Job] false,
      ∃ j ∈ s, j.status = JobStatus.discovered ∧ j.fit_score ≠ 0 ∧ j.fit_reason ≠ "" := by
  have harg : score_job c2Job.title c2Job.company c2Job.location c2Job.ats_type defaultFilterConfig
      = (⟨3/5, "title matches: intern, software engineer; preferred ATS (ashby +20%)", true⟩ :
          ScoringResult) := score_job_scenario1_eval
  have hscored : queueScoreCommit defaultFilterConfig [c2Job]
      = [(⟨"Software Engineer Intern", "Acme", none, some "ashby", 3/5,
          "title matches: intern, software engineer; preferred ATS (ashby +20%)",
          JobStatus.discovered⟩ : JobRow)] := by
    unfold queueScoreCommit
    simp only [List.map, harg]
    rfl
  have hq : (score_job c2Job.title c2Job.company c2Job.location c2Job.ats_type
      defaultFilterConfig).should_queue = true := by rw [harg]
  have hcmd : queueCommand defaultFilterConfig [c2Job] false
      = [[c2Job], queueScoreCommit defaultFilterConfig [c2Job]] := by
    unfold queueCommand
    have hd : List.filter (fun j => decide (j.status = JobStatus.discovered)) [c2Job]
        = [c2Job] := rfl
    rw [hd]
    rw [if_neg (by decide : ¬ ([c2Job].isEmpty = true))]
    have hfq : List.filter
        (fun j => (score_job j.title j.company j.location j.ats_type defaultFilterConfig).should_queue)
        [c2Job] = [c2Job] := by
      simp only [List.filter, hq]
    dsimp only
    rw [hfq]
    rw [if_neg (by decide : ¬ ([c2Job].isEmpty = true))]
    rw [if_neg (by decide : ¬ (false = true))]
  refine ⟨queueScoreCommit defaultFilterConfig [c2Job], ?_, ?_⟩
  · rw [hcmd]
    simp
  · rw [hscored]
    refine ⟨_, List.mem_singleton_self _, rfl, ?_, ?_⟩
    · show (3 : ℚ)/5 ≠ 0
      norm_num
    · show "title matches: intern, software engineer; preferred ATS (ashby +20%)" ≠ ""
      decide

/-! ### Claim C4: deduplicating insert into the job store -/

/-- Claim C4: (1) inserting a job whose url_hash already exists is a silent
no-op leaving the store unchanged; (2) _store_jobs preserves distinctness of
url_hash values, so the store holds at most one row per hash under any
sequence of inserts; (3) storing the same canonical job twice into an empty
store yields exactly the one row created by the first insert. -/
theorem claim_c4_dedup_insert :
    (∀ sid store job, (∃ r ∈ store, r.url_hash = job.url_hash) →
        insertIfNew sid store job = store) ∧
    (∀ sid store jobs, ((store.map StoredJob.url_hash).Nodup) →
        (((storeJobs store jobs sid).map StoredJob.url_hash).Nodup)) ∧
    (∀ sid j j', j.url_hash = j'.url_hash →
        storeJobs [] [j, j'] sid = [mkStoredJob j sid]) := by
  have hstep : ∀ sid (job : ParsedJobL) (store : List StoredJob),
      (store.map StoredJob.url_hash).Nodup →
      ((insertIfNew sid store job).map StoredJob.url_hash).Nodup := by
    intro sid job store h
    unfold insertIfNew
    by_cases hc : store.any (fun r => r.url_hash = job.url_hash) = true
    · rw [if_pos hc]; exact h
    · rw [if_neg hc]
      rw [List.map_append]
      rw [List.nodup_append]
      refine ⟨h, List.nodup_singleton _, ?_⟩
      intro a ha hb
      simp only [List.map_cons, List.map_nil, List.mem_singleton] at hb
      obtain ⟨r, hr, hrh⟩ := List.mem_map.mp ha
      apply hc
      rw [List.any_eq_true]
      refine ⟨r, hr, decide_eq_true ?_⟩
      show r.url_hash = job.url_hash
      rw [hrh, hb]
      rfl
  refine ⟨?_, ?_, ?_⟩
  · intro sid store job ⟨r, hr, hh⟩
    unfold insertIfNew
    rw [if_pos]
    rw [List.any_eq_true]
    exact ⟨r, hr, decide_eq_true hh⟩
  · intro sid store jobs
    induction jobs generalizing store with
    | nil => intro h; exact h
    | cons j js ih =>
        intro h
        show ((storeJobs (insertIfNew sid store j) js sid).map StoredJob.url_hash).Nodup
        exact ih _ (hstep sid j store h)
  · intro sid j j' h
    show insertIfNew sid (insertIfNew sid [] j) j' = [mkStoredJob j sid]
    have h1 : insertIfNew sid [] j = [mkStoredJob j sid] := rfl
    rw [h1]
    unfold insertIfNew
    rw [if_pos]
    rw [List.any_eq_true]
    refine ⟨mkStoredJob j sid, List.mem_singleton_self _, decide_eq_true ?_⟩
    show (mkStoredJob j sid).url_hash = j'.url_hash
    exact h

/-- Witness for claim C4 at concrete inputs: re-inserting a job whose hash
is already stored is a no-op, hashes stay distinct, and inserting the same
canonical job twice leaves exactly one row. -/
theorem claim_c4_dedup_insert_witness :
    insertIfNew none [mkStoredJob c4Job none] c4JobDup = [mkStoredJob c4Job none] ∧
    (((storeJobs [] [c4Job, c4JobDup] none).map StoredJob.url_hash).Nodup) ∧
    storeJobs [] [c4Job, c4JobDup] none = [mkStoredJob c4Job none] :=
  ⟨claim_c4_dedup_insert.1 none [mkStoredJob c4Job none] c4JobDup (by decide),
   claim_c4_dedup_insert.2.1 none [] [c4Job, c4JobDup] (by decide),
   claim_c4_dedup_insert.2.2 none c4Job c4JobDup (by decide)⟩

/-! ### Splitting and joining lemmas -/

theorem splitFirst_of_not_mem {sep : Char} {l : List Char} (h : sep ∉ l) :
    splitFirst sep l = none := by
  induction l with
  | nil => rfl
  | cons c rest ih =>
      simp only [splitFirst]
      rw [if_neg (by intro hc; exact h (hc ▸ List.mem_cons_self c rest))]
      rw [ih (fun hm => h (List.mem_cons_of_mem c hm))]

theorem splitFirst_append {sep : Char} {a : List Char} (b : List Char) (h : sep ∉ a) :
    splitFirst sep (a ++ sep :: b) = some (a, b) := by
  induction a with
  | nil => simp [splitFirst]
  | cons c rest ih =>
      simp only [List.cons_append, splitFirst, List.append_eq]
      rw [if_neg (by intro hc; exact h (hc ▸ List.mem_cons_self c rest))]
      rw [ih (fun hm => h (List.mem_cons_of_mem c hm))]

theorem splitFirst_eq_some {sep : Char} {l x y : List Char}
    (h : splitFirst sep l = some (x, y)) : l = x ++ sep :: y ∧ sep ∉ x := by
  induction l generalizing x y with
  | nil => simp [splitFirst] at h
  | cons c rest ih =>
      simp only [splitFirst] at h
      by_cases hc : c = sep
      · rw [if_pos hc] at h
        simp only [Option.some.injEq, Prod.mk.injEq] at h
        obtain ⟨hx, hy⟩ := h
        subst hx; subst hy
        exact ⟨by rw [hc]; rfl, by simp⟩
      · rw [if_neg hc] at h
        cases hr : splitFirst sep rest with
        | none => rw [hr] at h; exact absurd h (by simp)
        | some p =>
            obtain ⟨a2, b2⟩ := p
            rw [hr] at h
            simp only [Option.some.injEq, Prod.mk.injEq] at h
            obtain ⟨hx, hy⟩ := h
            obtain ⟨hl, hna⟩ := ih hr
            subst hx; subst hy
            refine ⟨by rw [hl]; rfl, ?_⟩
            intro hm
            rcases List.mem_cons.mp hm with hm | hm
            · exact hc hm.symm
            · exact hna hm

theorem splitChar_of_not_mem {sep : Char} {l : List Char} (h : sep ∉ l) :
    splitChar sep l = [l] := by
  induction l with
  | nil => rfl
  | cons c rest ih =>
      simp only [splitChar]
      rw [if_neg (by intro hc; exact h (hc ▸ List.mem_cons_self c rest))]
      rw [ih (fun hm => h (List.mem_cons_of_mem c hm))]

theorem splitChar_append {sep : Char} {a : List Char} (b : List Char) (h : sep ∉ a) :
    splitChar sep (a ++ sep :: b) = a :: splitChar sep b := by
  induction a with
  | nil => simp [splitChar]
  | cons c rest ih =>
      simp only [List.cons_append, splitChar, List.append_eq]
      rw [if_neg (by intro hc; exact h (hc ▸ List.mem_cons_self c rest))]
      rw [ih (fun hm => h (List.mem_cons_of_mem c hm))]

theorem splitChar_joinCharSep {sep : Char} {pieces : List (List Char)}
    (hne : pieces ≠ []) (h : ∀ x ∈ pieces, sep ∉ x) :
    splitChar sep (joinCharSep sep pieces) = pieces := by
  induction pieces with
  | nil => exact absurd rfl hne
  | cons x rest ih =>
      cases rest with
      | nil =>
          show splitChar sep (joinCharSep sep [x]) = [x]
          exact splitChar_of_not_mem (h x (List.mem_cons_self x []))
      | cons y rest2 =>
          show splitChar sep (x ++ sep :: joinCharSep sep (y :: rest2)) = x :: (y :: rest2)
          rw [splitChar_append _ (h x (List.mem_cons_self x _))]
          rw [ih (by simp) (fun z hz => h z (List.mem_cons_of_mem x hz))]

theorem mem_joinCharSep {sep : Char} {pieces : List (List Char)} {x : Char}
    (h : x ∈ joinCharSep sep pieces) : x = sep ∨ ∃ p ∈ pieces, x ∈ p := by
  induction pieces with
  | nil => simp [joinCharSep] at h
  | cons a rest ih =>
      cases rest with
      | nil =>
          simp only [joinCharSep] at h
          exact Or.inr ⟨a, List.mem_cons_self a [], h⟩
      | cons b rest2 =>
          have h2 : x ∈ a ++ sep :: joinCharSep sep (b :: rest2) := h
          rcases List.mem_append.mp h2 with hx | hx
          · exact Or.inr ⟨a, List.mem_cons_self a _, hx⟩
          · rcases List.mem_cons.mp hx with hx | hx
            · exact Or.inl hx
            · rcases ih hx with hx | ⟨p, hp, hxp⟩
              · exact Or.inl hx
              · exact Or.inr ⟨p, List.mem_cons_of_mem a hp, hxp⟩

/-! ### UTF-8 round trip -/

theorem charValidRange (c : Char) :
    c.toNat < 55296 ∨ (57343 < c.toNat ∧ c.toNat < 1114112) := by
  have hv := c.valid
  rcases hv with h | ⟨h1, h2⟩
  · left
    exact_mod_cast h
  · right
    constructor
    · exact_mod_cast h1
    · exact_mod_cast h2

theorem utf8EncodeChar_ne_nil (c : Char) : utf8EncodeChar c ≠ [] := by
  simp only [utf8EncodeChar]
  split_ifs <;> simp

theorem utf8EncodeChar_lt_256 {c : Char} {b : Nat} (h : b ∈ utf8EncodeChar c) : b < 256 := by
  have hr := charValidRange c
  simp only [utf8EncodeChar] at h
  split_ifs at h with h1 h2 h3
  · simp only [List.mem_singleton] at h; omega
  · simp only [List.mem_cons, List.not_mem_nil, or_false] at h
    rcases h with rfl | rfl <;> omega
  · simp only [List.mem_cons, List.not_mem_nil, or_false] at h
    rcases h with rfl | rfl | rfl <;> omega
  · simp only [List.mem_cons, List.not_mem_nil, or_false] at h
    rcases h with rfl | rfl | rfl | rfl <;> omega

theorem length_le_length_utf8Encode (l : List Char) : l.length ≤ (utf8Encode l).length := by
  induction l with
  | nil => simp [utf8Encode]
  | cons c rest ih =>
      show (c :: rest).length ≤ (utf8EncodeChar c ++ utf8Encode rest).length
      rw [List.length_append, List.length_cons]
      have h1 : 1 ≤ (utf8EncodeChar c).length := by
        cases he : utf8EncodeChar c with
        | nil => exact absurd he (utf8EncodeChar_ne_nil c)
        | cons b bs => simp
      omega

theorem utf8DecodeF_encodeChar (c : Char) (bs : List Nat) (g : Nat) :
    utf8DecodeF (g + 1) (utf8EncodeChar c ++ bs) = c :: utf8DecodeF g bs := by
  have hr := charValidRange c
  by_cases h1 : c.toNat < 128
  · have he : utf8EncodeChar c ++ bs = c.toNat :: bs := by
      simp only [utf8EncodeChar]; rw [if_pos h1]; rfl
    rw [he]
    simp only [utf8DecodeF]
    rw [if_pos (show c.toNat ≤ 127 by omega), Char.ofNat_toNat]
  · by_cases h2 : c.toNat < 2048
    · have he : utf8EncodeChar c ++ bs
          = (192 + c.toNat / 64) :: (128 + c.toNat % 64) :: bs := by
        simp only [utf8EncodeChar]; rw [if_neg (by omega), if_pos h2]; rfl
      rw [he]
      have hb : ¬ (192 + c.toNat / 64 ≤ 127) := by omega
      have hb2 : 194 ≤ 192 + c.toNat / 64 ∧ 192 + c.toNat / 64 ≤ 223 := by omega
      have hc : isContByte (128 + c.toNat % 64) = true := by
        simp only [isContByte, Bool.and_eq_true, decide_eq_true_eq]
        omega
      simp only [utf8DecodeF]
      rw [if_neg hb, if_pos hb2, if_pos hc]
      congr 1
      have harith : (192 + c.toNat / 64 - 192) * 64 + (128 + c.toNat % 64 - 128) = c.toNat := by
        omega
      rw [harith, Char.ofNat_toNat]
    · by_cases h3 : c.toNat < 65536
      · have he : utf8EncodeChar c ++ bs
            = (224 + c.toNat / 4096) :: (128 + c.toNat / 64 % 64) :: (128 + c.toNat % 64) :: bs := by
          simp only [utf8EncodeChar]; rw [if_neg (by omega), if_neg (by omega), if_pos h3]; rfl
        rw [he]
        have hb : ¬ (224 + c.toNat / 4096 ≤ 127) := by omega
        have hb2 : ¬ (194 ≤ 224 + c.toNat / 4096 ∧ 224 + c.toNat / 4096 ≤ 223) := by omega
        have hb3 : 224 ≤ 224 + c.toNat / 4096 ∧ 224 + c.toNat / 4096 ≤ 239 := by omega
        have hv3 : (valid3Second (224 + c.toNat / 4096) (128 + c.toNat / 64 % 64)
            && isContByte (128 + c.toNat % 64)) = true := by
          simp only [valid3Second, isContByte, Bool.and_eq_true, decide_eq_true_eq]
          constructor
          · split_ifs with hx hy <;> simp only [Bool.and_eq_true, decide_eq_true_eq] <;> omega
          · omega
        simp only [utf8DecodeF]
        rw [if_neg hb, if_neg hb2, if_pos hb3, if_pos hv3]
        congr 1
        have harith : (224 + c.toNat / 4096 - 224) * 4096 + (128 + c.toNat / 64 % 64 - 128) * 64
            + (128 + c.toNat % 64 - 128) = c.toNat := by omega
        rw [harith, Char.ofNat_toNat]
      · have he : utf8EncodeChar c ++ bs
            = (240 + c.toNat / 262144) :: (128 + c.toNat / 4096 % 64)
              :: (128 + c.toNat / 64 % 64) :: (128 + c.toNat % 64) :: bs := by
          simp only [utf8EncodeChar]
          rw [if_neg (by omega), if_neg (by omega), if_neg (by omega)]
          rfl
        rw [he]
        have hb : ¬ (240 + c.toNat / 262144 ≤ 127) := by omega
        have hb2 : ¬ (194 ≤ 240 + c.toNat / 262144 ∧ 240 + c.toNat / 262144 ≤ 223) := by omega
        have hb3 : ¬ (224 ≤ 240 + c.toNat / 262144 ∧ 240 + c.toNat / 262144 ≤ 239) := by omega
        have hb4 : 240 ≤ 240 + c.toNat / 262144 ∧ 240 + c.toNat / 262144 ≤ 244 := by omega
        have hv4 : (valid4Second (240 + c.toNat / 262144) (128 + c.toNat / 4096 % 64)
            && isContByte (128 + c.toNat / 64 % 64) && isContByte (128 + c.toNat % 64)) = true := by
          simp only [valid4Second, isContByte, Bool.and_eq_true, decide_eq_true_eq]
          refine ⟨⟨?_, by omega⟩, by omega⟩
          split_ifs with hx hy <;> simp only [Bool.and_eq_true, decide_eq_true_eq] <;> omega
        simp only [utf8DecodeF]
        rw [if_neg hb, if_neg hb2, if_neg hb3, if_pos hb4, if_pos hv4]
        congr 1
        have harith : (240 + c.toNat / 262144 - 240) * 262144 + (128 + c.toNat / 4096 % 64 - 128) * 4096
            + (128 + c.toNat / 64 % 64 - 128) * 64 + (128 + c.toNat % 64 - 128) = c.toNat := by
          omega
        rw [harith, Char.ofNat_toNat]

theorem utf8DecodeF_encode (l : List Char) :
    ∀ f, l.length ≤ f → utf8DecodeF f (utf8Encode l) = l := by
  induction l with
  | nil =>
      intro f _
      show utf8DecodeF f [] = []
      cases f <;> rfl
  | cons c rest ih =>
      intro f hf
      cases f with
      | zero => simp at hf
      | succ g =>
          show utf8DecodeF (g + 1) (utf8EncodeChar c ++ utf8Encode rest) = c :: rest
          rw [utf8DecodeF_encodeChar]
          rw [ih g (by simpa using hf)]

theorem utf8Decode_encode (l : List Char) : utf8Decode (utf8Encode l) = l := by
  unfold utf8Decode
  exact utf8DecodeF_encode l _ (length_le_length_utf8Encode l)

/-! ### quote_plus / unquote_plus round trip -/

theorem hexVal_hexUpper {n : Nat} (h : n < 16) : hexVal (hexUpper n) = some n := by
  interval_cases n <;> decide

theorem hexUpper_ne_plus {n : Nat} (h : n < 16) : hexUpper n ≠ '+' := by
  interval_cases n <;> decide

theorem length_flatMap_quoteByte (l : List Nat) :
    (l.flatMap quoteByte).length = 3 * l.length := by
  induction l with
  | nil => rfl
  | cons b bt ih =>
      show (quoteByte b ++ bt.flatMap quoteByte).length = 3 * (bt.length + 1)
      rw [List.length_append, ih]
      simp [quoteByte]
      omega

theorem unqRunF_nil (g : Nat) (acc : List Nat) :
    unqRunF g acc [] = utf8Decode acc.reverse := by
  cases g <;> rfl

theorem unqRunF_cons_of_ne {c : Char} (hc : c ≠ '%') (g : Nat) (acc : List Nat)
    (rest : List Char) :
    unqRunF (g + 1) acc (c :: rest) = utf8Decode acc.reverse ++ c :: unqRunF g [] rest := by
  simp only [unqRunF]
  rw [if_neg hc]

theorem unqRunF_quoteBytes (bytes : List Nat) (h : ∀ b ∈ bytes, b < 256) :
    ∀ (g : Nat) (acc : List Nat) (rest : List Char),
    unqRunF (bytes.length + g) acc (bytes.flatMap quoteByte ++ rest)
      = unqRunF g (bytes.reverse ++ acc) rest := by
  induction bytes with
  | nil => intro g acc rest; simp
  | cons b bt ih =>
      intro g acc rest
      have hb : b < 256 := h b (List.mem_cons_self b bt)
      have hstream : (b :: bt).flatMap quoteByte ++ rest
          = '%' :: hexUpper (b / 16) :: hexUpper (b % 16) :: (bt.flatMap quoteByte ++ rest) := by
        simp [quoteByte]
      rw [hstream]
      have hfe : (b :: bt).length + g = (bt.length + g) + 1 := by
        simp
        omega
      rw [hfe]
      simp only [unqRunF, if_true]
      rw [hexVal_hexUpper (by omega : b / 16 < 16), hexVal_hexUpper (by omega : b % 16 < 16)]
      have harith : 16 * (b / 16) + b % 16 = b := by omega
      dsimp only
      rw [harith]
      rw [ih (fun b' hb' => h b' (List.mem_cons_of_mem b hb')) g (b :: acc) rest]
      congr 1
      simp

theorem map_trPlus_quoteBytes (c : Char) :
    ((utf8EncodeChar c).flatMap quoteByte).map trPlus = (utf8EncodeChar c).flatMap quoteByte := by
  have hne : ∀ x ∈ (utf8EncodeChar c).flatMap quoteByte, x ≠ '+' := by
    intro x hx
    obtain ⟨b, hb, hxq⟩ := List.mem_flatMap.mp hx
    have hb256 : b < 256 := utf8EncodeChar_lt_256 hb
    simp only [quoteByte, List.mem_cons, List.not_mem_nil, or_false] at hxq
    rcases hxq with rfl | rfl | rfl
    · decide
    · exact hexUpper_ne_plus (by omega)
    · exact hexUpper_ne_plus (by omega)
  rw [List.map_congr_left (fun x hx => by unfold trPlus; rw [if_neg (hne x hx)])]
  exact List.map_id _

theorem unqRunF_quotePlus (s : List Char) :
    ∀ (g : Nat) (cs : List Char), ((quotePlus s).map trPlus).length ≤ g →
    unqRunF g (utf8Encode cs).reverse ((quotePlus s).map trPlus) = cs ++ s := by
  induction s with
  | nil =>
      intro g cs _
      show unqRunF g (utf8Encode cs).reverse [] = cs ++ []
      rw [unqRunF_nil, List.reverse_reverse, utf8Decode_encode, List.append_nil]
  | cons c s' ih =>
      intro g cs hg
      have hmap : (quotePlus (c :: s')).map trPlus
          = (quotePlusChar c).map trPlus ++ (quotePlus s').map trPlus := by
        simp [quotePlus]
      rw [hmap] at hg ⊢
      by_cases hsp : c = ' '
      · subst hsp
        have hqc : (quotePlusChar ' ').map trPlus = [' '] := by decide
        rw [hqc] at hg ⊢
        obtain ⟨g', rfl⟩ : ∃ g', g = g' + 1 := by
          refine ⟨g - 1, ?_⟩
          simp at hg
          omega
        rw [List.singleton_append, unqRunF_cons_of_ne (by decide) g' _ _]
        rw [List.reverse_reverse, utf8Decode_encode]
        have hih := ih g' [] (by simp at hg ⊢; omega)
        simp only [utf8Encode, List.flatMap_nil, List.reverse_nil] at hih
        rw [hih]
        rfl
      · by_cases hsafe : alwaysSafe c = true
        · have hplus : c ≠ '+' := by
            intro h
            rw [h] at hsafe
            exact absurd hsafe (by decide)
          have hpct : c ≠ '%' := by
            intro h
            rw [h] at hsafe
            exact absurd hsafe (by decide)
          have hqc : (quotePlusChar c).map trPlus = [c] := by
            simp only [quotePlusChar, if_neg hsp, if_pos hsafe, List.map_cons, List.map_nil]
            unfold trPlus
            rw [if_neg hplus]
          rw [hqc] at hg ⊢
          obtain ⟨g', rfl⟩ : ∃ g', g = g' + 1 := by
            refine ⟨g - 1, ?_⟩
            simp at hg
            omega
          rw [List.singleton_append, unqRunF_cons_of_ne hpct g' _ _]
          rw [List.reverse_reverse, utf8Decode_encode]
          have hih := ih g' [] (by simp at hg ⊢; omega)
          simp only [utf8Encode, List.flatMap_nil, List.reverse_nil] at hih
          rw [hih]
          rfl
        · have hqc : (quotePlusChar c).map trPlus = (utf8EncodeChar c).flatMap quoteByte := by
            simp only [quotePlusChar, if_neg hsp, if_neg hsafe]
            exact map_trPlus_quoteBytes c
          rw [hqc] at hg ⊢
          have hk1 : 1 ≤ (utf8EncodeChar c).length := by
            cases he : utf8EncodeChar c with
            | nil => exact absurd he (utf8EncodeChar_ne_nil c)
            | cons x xs => simp
          have hlen : ((utf8EncodeChar c).flatMap quoteByte).length
              = 3 * (utf8EncodeChar c).length := length_flatMap_quoteByte _
          have hgk : g = (utf8EncodeChar c).length + (g - (utf8EncodeChar c).length) := by
            rw [List.length_append, hlen] at hg
            omega
          rw [hgk]
          rw [unqRunF_quoteBytes (utf8EncodeChar c) (fun b hb => utf8EncodeChar_lt_256 hb)
            (g - (utf8EncodeChar c).length) _ _]
          have hacc : (utf8EncodeChar c).reverse ++ (utf8Encode cs).reverse
              = (utf8Encode (cs ++ [c])).reverse := by
            rw [show utf8Encode (cs ++ [c]) = utf8Encode cs ++ utf8EncodeChar c by
              simp [utf8Encode]]
            rw [List.reverse_append]
          rw [hacc]
          have hih := ih (g - (utf8EncodeChar c).length) (cs ++ [c]) (by
            rw [List.length_append, hlen] at hg
            omega)
          rw [hih]
          simp

theorem emailLoop_mem : ∀ (cands : List EmailCandidate) (seen : List String)
    (j : ParsedJobOut), j ∈ emailLoop cands seen →
    j.url_hash ∉ seen ∧ j.title ≠ "" ∧
      ∃ c ∈ cands, c.url ≠ "" ∧ c.title ≠ "" ∧
        j.url_hash = url_hash (canonicalise_url c.url) := by
  intro cands
  induction cands with
  | nil => intro seen j hj; simp [emailLoop] at hj
  | cons c rest ih =>
      intro seen j hj
      simp only [emailLoop] at hj
      by_cases hc : c.url = "" ∨ c.title = ""
      · rw [if_pos hc] at hj
        obtain ⟨h1, h2, c', hc', h3⟩ := ih seen j hj
        exact ⟨h1, h2, c', List.mem_cons_of_mem _ hc', h3⟩
      · rw [if_neg hc] at hj
        push_neg at hc
        by_cases hs : url_hash (canonicalise_url c.url) ∈ seen
        · rw [if_pos hs] at hj
          obtain ⟨h1, h2, c', hc', h3⟩ := ih seen j hj
          exact ⟨h1, h2, c', List.mem_cons_of_mem _ hc', h3⟩
        · rw [if_neg hs] at hj
          rcases List.mem_cons.mp hj with rfl | hj'
          · exact ⟨hs, hc.2, c, List.mem_cons_self c rest, hc.1, hc.2, rfl⟩
          · obtain ⟨h1, h2, c', hc', h3⟩ := ih _ j hj'
            exact ⟨fun hin => h1 (List.mem_cons_of_mem _ hin), h2, c',
              List.mem_cons_of_mem _ hc', h3⟩

theorem emailLoop_nodup : ∀ (cands : List EmailCandidate) (seen : List String),
    ((emailLoop cands seen).map (fun j => j.url_hash)).Nodup := by
  intro cands
  induction cands with
  | nil => intro seen; simp [emailLoop]
  | cons c rest ih =>
      intro seen
      simp only [emailLoop]
      by_cases hc : c.url = "" ∨ c.title = ""
      · rw [if_pos hc]; exact ih seen
      · rw [if_neg hc]
        by_cases hs : url_hash (canonicalise_url c.url) ∈ seen
        · rw [if_pos hs]; exact ih seen
        · rw [if_neg hs]
          rw [List.map_cons]
          refine List.nodup_cons.mpr ⟨?_, ih _⟩
          intro hmem
          obtain ⟨j, hj, hjh⟩ := List.mem_map.mp hmem
          apply (emailLoop_mem rest _ j hj).1
          rw [show j.url_hash = url_hash (canonicalise_url c.url) from hjh]
          exact List.mem_cons_self _ _

theorem emailLoop_covers : ∀ (cands : List EmailCandidate) (seen : List String)
    (c : EmailCandidate), c ∈ cands → c.url ≠ "" → c.title ≠ "" →
    url_hash (canonicalise_url c.url) ∈ seen ∨
      url_hash (canonicalise_url c.url) ∈
        (emailLoop cands seen).map (fun j => j.url_hash) := by
  intro cands
  induction cands with
  | nil => intro seen c hc; exact absurd hc (List.not_mem_nil c)
  | cons c0 rest ih =>
      intro seen c hc hu ht
      simp only [emailLoop]
      rcases List.mem_cons.mp hc with rfl | hc'
      · rw [if_neg (show ¬(c.url = "" ∨ c.title = "") by push_neg; exact ⟨hu, ht⟩)]
        by_cases hs : url_hash (canonicalise_url c.url) ∈ seen
        · rw [if_pos hs]; exact Or.inl hs
        · rw [if_neg hs]
          right
          rw [List.map_cons]
          exact List.mem_cons_self _ _
      · by_cases hc0 : c0.url = "" ∨ c0.title = ""
        · rw [if_pos hc0]; exact ih seen c hc' hu ht
        · rw [if_neg hc0]
          by_cases hs : url_hash (canonicalise_url c0.url) ∈ seen
          · rw [if_pos hs]; exact ih seen c hc' hu ht
          · rw [if_neg hs]
            rcases ih (url_hash (canonicalise_url c0.url) :: seen) c hc' hu ht with hin | hin
            · rcases List.mem_cons.mp hin with heq | hin'
              · right
                rw [List.map_cons, heq]
                exact List.mem_cons_self _ _
              · exact Or.inl hin'
            · right
              rw [List.map_cons]
              exact List.mem_cons_of_mem _ hin

theorem emailLoop_first : ∀ (cands : List EmailCandidate) (seen : List String)
    (j : ParsedJobOut), j ∈ emailLoop cands seen →
    ∃ pre c post, cands = pre ++ c :: post ∧ c.url ≠ "" ∧ c.title ≠ "" ∧
      url_hash (canonicalise_url c.url) ∉ seen ∧
      j = ⟨c.company, c.title, canonicalise_url c.url,
        url_hash (canonicalise_url c.url),
        detect_ats_from_url (canonicalise_url c.url), c.location⟩ ∧
      ∀ c' ∈ pre, c'.url ≠ "" → c'.title ≠ "" →
        url_hash (canonicalise_url c'.url) ≠ url_hash (canonicalise_url c.url) := by
  intro cands
  induction cands with
  | nil => intro seen j hj; simp [emailLoop] at hj
  | cons c0 rest ih =>
      intro seen j hj
      simp only [emailLoop] at hj
      by_cases hc : c0.url = "" ∨ c0.title = ""
      · rw [if_pos hc] at hj
        obtain ⟨pre, c, post, heq, hu, ht, hs, hje, hfirst⟩ := ih seen j hj
        refine ⟨c0 :: pre, c, post, by rw [heq, List.cons_append], hu, ht, hs, hje, ?_⟩
        intro c' hc' hu' ht'
        rcases List.mem_cons.mp hc' with rfl | hmem
        · rcases hc with h | h
          · exact absurd h hu'
          · exact absurd h ht'
        · exact hfirst c' hmem hu' ht'
      · rw [if_neg hc] at hj
        push_neg at hc
        by_cases hs0 : url_hash (canonicalise_url c0.url) ∈ seen
        · rw [if_pos hs0] at hj
          obtain ⟨pre, c, post, heq, hu, ht, hs, hje, hfirst⟩ := ih seen j hj
          refine ⟨c0 :: pre, c, post, by rw [heq, List.cons_append], hu, ht, hs, hje, ?_⟩
          intro c' hc' hu' ht'
          rcases List.mem_cons.mp hc' with rfl | hmem
          · intro hehash
            apply hs
            rw [← hehash]
            exact hs0
          · exact hfirst c' hmem hu' ht'
        · rw [if_neg hs0] at hj
          rcases List.mem_cons.mp hj with rfl | hj'
          · exact ⟨[], c0, rest, rfl, hc.1, hc.2, hs0, rfl,
              fun c' hc' => absurd hc' (List.not_mem_nil c')⟩
          · obtain ⟨pre, c, post, heq, hu, ht, hs, hje, hfirst⟩ := ih _ j hj'
            have hsne : url_hash (canonicalise_url c.url) ∉ seen :=
              fun hin => hs (List.mem_cons_of_mem _ hin)
            have hne0 : url_hash (canonicalise_url c.url)
                ≠ url_hash (canonicalise_url c0.url) := by
              intro he
              apply hs
              rw [he]
              exact List.mem_cons_self _ _
            refine
              ⟨c0 :: pre, c, post, by rw [heq, List.cons_append], hu, ht, hsne, hje, ?_⟩
            intro c' hc' hu' ht'
            rcases List.mem_cons.mp hc' with rfl | hmem
            · exact fun he => hne0 he.symm
            · exact hfirst c' hmem hu' ht'

/-- C9: one call to parse_email_html returns pairwise-distinct url_hash
values; every emitted job is built from a candidate with nonempty url and
title that is the first, in document order, among the valid candidates
whose canonical URLs collide on its hash (every valid candidate before it
in the list hashes differently); and every valid candidate's canonical
hash does appear in the output, so among colliding candidates exactly the
first one is emitted. -/
theorem claim_c9_email_dedup (cands : List EmailCandidate) :
    ((parse_email_html cands).map (fun j => j.url_hash)).Nodup ∧
    (∀ j ∈ parse_email_html cands, ∃ pre c post,
      cands = pre ++ c :: post ∧ c.url ≠ "" ∧ c.title ≠ "" ∧
      j = ⟨c.company, c.title, canonicalise_url c.url,
        url_hash (canonicalise_url c.url),
        detect_ats_from_url (canonicalise_url c.url), c.location⟩ ∧
      ∀ c' ∈ pre, c'.url ≠ "" → c'.title ≠ "" →
        url_hash (canonicalise_url c'.url) ≠ url_hash (canonicalise_url c.url)) ∧
    (∀ c ∈ cands, c.url ≠ "" → c.title ≠ "" →
      url_hash (canonicalise_url c.url) ∈
        (parse_email_html cands).map (fun j => j.url_hash)) := by
  refine ⟨emailLoop_nodup cands [], ?_, ?_⟩
  · intro j hj
    obtain ⟨pre, c, post, heq, hu, ht, _, hje, hfirst⟩ := emailLoop_first cands [] j hj
    exact ⟨pre, c, post, heq, hu, ht, hje, hfirst⟩
  · intro c hc hu ht
    rcases emailLoop_covers cands [] c hc hu ht with hin | hin
    · exact absurd hin (List.not_mem_nil _)
    · exact hin

set_option maxRecDepth 10000 in
theorem claim_c9_email_dedup_witness :
    ((parse_email_html [c9CandA, c9CandB]).map (fun j => j.url_hash)).Nodup ∧
    (∃ pre c post, ([c9CandA, c9CandB] : List EmailCandidate) = pre ++ c :: post ∧
      c.url ≠ "" ∧ c.title ≠ "" ∧
      c9Job = ⟨c.company, c.title, canonicalise_url c.url,
        url_hash (canonicalise_url c.url),
        detect_ats_from_url (canonicalise_url c.url), c.location⟩ ∧
      ∀ c' ∈ pre, c'.url ≠ "" → c'.title ≠ "" →
        url_hash (canonicalise_url c'.url) ≠ url_hash (canonicalise_url c.url)) ∧
    url_hash (canonicalise_url c9CandB.url) ∈
      (parse_email_html [c9CandA, c9CandB]).map (fun j => j.url_hash) :=
  ⟨(claim_c9_email_dedup [c9CandA, c9CandB]).1,
   (claim_c9_email_dedup [c9CandA, c9CandB]).2.1 c9Job (by decide),
   (claim_c9_email_dedup [c9CandA, c9CandB]).2.2 c9CandB (by decide) (by decide) (by decide)⟩

theorem rowJob_spec {kws : List String} {comp : String} {r : FeedRow}
    {job : ParsedJobOut} (h : rowJob kws comp r = some job) :
    kws.any (fun kw => pyIn kw (pyLower job.title)) = true ∧
    job.ats_type ∉ skippedAts := by
  cases hg : getApplyUrl r with
  | none =>
      simp only [rowJob, hg] at h
      exact Option.noConfusion h
  | some url =>
      simp only [rowJob, hg] at h
      split_ifs at h <;>
        first
          | exact Option.noConfusion h
          | (obtain rfl := Option.some.inj h
             refine ⟨?_, by assumption⟩
             cases hb : (kws.any (fun kw => pyIn kw (pyLower (stripEmoji r.role_cell)))) with
             | false => exact absurd hb (by assumption)
             | true => rfl)

theorem feedLoop_mem : ∀ (rows : List FeedRow) (kws : List String)
    (cur : Option String) (seen : List String) (j : ParsedJobOut),
    j ∈ feedLoop kws rows cur seen →
    kws.any (fun kw => pyIn kw (pyLower j.title)) = true ∧
    j.ats_type ∉ skippedAts := by
  intro rows
  induction rows with
  | nil => intro kws cur seen j hj; simp [feedLoop] at hj
  | cons r rest ih =>
      intro kws cur seen j hj
      simp only [feedLoop] at hj
      by_cases h1 : r.cells_ok = false
      · rw [if_pos h1] at hj; exact ih _ _ _ j hj
      · rw [if_neg h1] at hj
        cases hcomp : rowCompany cur r with
        | none => rw [hcomp] at hj; exact ih _ _ _ j hj
        | some comp =>
            rw [hcomp] at hj
            dsimp only at hj
            by_cases h2 : comp = ""
            · rw [if_pos h2] at hj; exact ih _ _ _ j hj
            · rw [if_neg h2] at hj
              cases hrj : rowJob kws comp r with
              | none => rw [hrj] at hj; exact ih _ _ _ j hj
              | some job' =>
                  rw [hrj] at hj
                  dsimp only at hj
                  by_cases h3 : job'.url_hash ∈ seen
                  · rw [if_pos h3] at hj; exact ih _ _ _ j hj
                  · rw [if_neg h3] at hj
                    rcases List.mem_cons.mp hj with rfl | hj'
                    · exact rowJob_spec hrj
                    · exact ih _ _ _ j hj'

/-- C10: every job emitted by fetch_github_jobs has a title matching at
least one configured keyword case-insensitively, and its ATS type is
neither workday nor taleo — the feed source pre-filters rows before
storage or scoring sees them. -/
theorem claim_c10_feed_prefilter (cfg : FilterConfig) (rows : List FeedRow)
    (j : ParsedJobOut) (hj : j ∈ fetch_github_jobs cfg rows) :
    (∃ kw ∈ cfg.title_keywords, pyIn (pyLower kw) (pyLower j.title) = true) ∧
    j.ats_type ≠ "workday" ∧ j.ats_type ≠ "taleo" := by
  obtain ⟨h1, h2⟩ := feedLoop_mem rows (cfg.title_keywords.map pyLower) none [] j hj
  refine ⟨?_, ?_, ?_⟩
  · obtain ⟨kw, hkw, hin⟩ := List.any_eq_true.mp h1
    obtain ⟨kw0, hkw0, rfl⟩ := List.mem_map.mp hkw
    exact ⟨kw0, hkw0, hin⟩
  · intro he
    apply h2
    rw [he]
    decide
  · intro he
    apply h2
    rw [he]
    decide

set_option maxRecDepth 10000 in
theorem claim_c10_feed_prefilter_witness :
    c10Job ∈ fetch_github_jobs defaultFilterConfig [c10Row] ∧
    ((∃ kw ∈ defaultFilterConfig.title_keywords,
        pyIn (pyLower kw) (pyLower c10Job.title) = true) ∧
      c10Job.ats_type ≠ "workday" ∧ c10Job.ats_type ≠ "taleo") :=
  have hmem : c10Job ∈ fetch_github_jobs defaultFilterConfig [c10Row] := by decide
  ⟨hmem, claim_c10_feed_prefilter defaultFilterConfig [c10Row] c10Job hmem⟩

theorem pyUnquotePlus_quotePlus (s : List Char) : pyUnquotePlus (quotePlus s) = s := by
  unfold pyUnquotePlus
  have hlen : (quotePlus s).length = ((quotePlus s).map trPlus).length := by simp
  rw [hlen]
  have h := unqRunF_quotePlus s ((quotePlus s).map trPlus).length [] (le_refl _)
  simp only [utf8Encode, List.flatMap_nil, List.reverse_nil] at h
  rw [h]
  rfl

/-! ### Canonicalisation on plain https URLs -/

theorem hostChar_ge33 {c : Char} (h : hostChar c = true) : 33 ≤ c.toNat := by
  simp only [hostChar, Bool.or_eq_true, Bool.and_eq_true, decide_eq_true_eq] at h
  omega

theorem pathChar_ge33 {c : Char} (h : pathChar c = true) : 33 ≤ c.toNat := by
  simp only [pathChar, Bool.or_eq_true, Bool.and_eq_true, decide_eq_true_eq] at h
  omega

theorem hostChar_not_upper {c : Char} (h : hostChar c = true) :
    ¬(65 ≤ c.toNat ∧ c.toNat ≤ 90) := by
  simp only [hostChar, Bool.or_eq_true, Bool.and_eq_true, decide_eq_true_eq] at h
  omega

theorem pyCharLower_eq_self_of {c : Char} (h : ¬(65 ≤ c.toNat ∧ c.toNat ≤ 90)) :
    pyCharLower c = c := by
  unfold pyCharLower
  rw [if_neg]
  rintro ⟨h1, h2⟩
  exact h ⟨h1, h2⟩

theorem pyLowerL_eq_self_host {hl : List Char} (hh : ∀ c ∈ hl, hostChar c = true) :
    pyLowerL hl = hl := by
  unfold pyLowerL
  rw [List.map_congr_left
    (fun c hc => pyCharLower_eq_self_of (hostChar_not_upper (hh c hc)))]
  exact List.map_id _

theorem pyIsSpace_false_of_ge {c : Char} (h : 33 ≤ c.toNat) : pyIsSpace c = false := by
  cases hb : pyIsSpace c with
  | false => rfl
  | true =>
      exfalso
      simp only [pyIsSpace, Bool.or_eq_true, decide_eq_true_eq] at hb
      rcases hb with ((((((((rfl | rfl) | rfl) | hn) | hn) | rfl) | hn) | hn) | hn) | hn <;>
        first | exact absurd h (by decide) | omega

theorem not_mem_host {hl : List Char} (hh : ∀ c ∈ hl, hostChar c = true) {d : Char}
    (hd : hostChar d = false) : d ∉ hl :=
  fun hin => by rw [hh d hin] at hd; exact Bool.noConfusion hd

theorem not_mem_path {p : List Char} (hp : ∀ c ∈ p, pathChar c = true) {d : Char}
    (hd : pathChar d = false) : d ∉ p :=
  fun hin => by rw [hp d hin] at hd; exact Bool.noConfusion hd

theorem netlocEnd_false_of_hostChar {c : Char} (h : hostChar c = true) :
    netlocEnd c = false := by
  cases hb : netlocEnd c with
  | false => rfl
  | true =>
      exfalso
      simp only [netlocEnd, Bool.or_eq_true, decide_eq_true_eq] at hb
      rcases hb with (rfl | rfl) | rfl <;> exact absurd h (by decide)

theorem filter_tab_eq_self {l : List Char} (h : ∀ c ∈ l, 33 ≤ c.toNat) :
    l.filter (fun c => ¬ (c = '\t' || c = '\r' || c = '\n')) = l := by
  rw [List.filter_eq_self]
  intro a ha
  have h33 := h a ha
  refine decide_eq_true ?_
  simp only [Bool.or_eq_true, decide_eq_true_eq]
  rintro ((rfl | rfl) | rfl) <;> exact absurd h33 (by decide)

theorem takeWhile_append_all {q : Char → Bool} {a : List Char}
    (h : ∀ x ∈ a, q x = true) (b : List Char) :
    (a ++ b).takeWhile q = a ++ b.takeWhile q := by
  induction a with
  | nil => simp
  | cons c rest ih =>
      rw [List.cons_append, List.takeWhile_cons_of_pos (h c (List.mem_cons_self c rest)),
        ih (fun x hx => h x (List.mem_cons_of_mem c hx)), List.cons_append]

theorem dropWhile_append_all {q : Char → Bool} {a : List Char}
    (h : ∀ x ∈ a, q x = true) (b : List Char) :
    (a ++ b).dropWhile q = b.dropWhile q := by
  induction a with
  | nil => simp
  | cons c rest ih =>
      rw [List.cons_append, List.dropWhile_cons_of_pos (h c (List.mem_cons_self c rest)),
        ih (fun x hx => h x (List.mem_cons_of_mem c hx))]

theorem dropWhile_pyIsSpace_eq_self {l : List Char} (h : ∀ c ∈ l, pyIsSpace c = false) :
    l.dropWhile pyIsSpace = l := by
  cases l with
  | nil => rfl
  | cons c rest =>
      exact List.dropWhile_cons_of_neg
        (by rw [h c (List.mem_cons_self c rest)]; exact Bool.false_ne_true)

theorem pyStripL_eq_self {l : List Char} (h : ∀ c ∈ l, pyIsSpace c = false) :
    pyStripL l = l := by
  unfold pyStripL
  rw [dropWhile_pyIsSpace_eq_self h]
  rw [dropWhile_pyIsSpace_eq_self (fun c hc => h c (List.mem_reverse.mp hc))]
  exact List.reverse_reverse l

theorem rstripSlash_prefix (l : List Char) : rstripSlash l <+: l := by
  unfold rstripSlash
  have h : (l.reverse.dropWhile (fun c => c = '/')) <:+ l.reverse :=
    List.dropWhile_suffix _
  have h2 := List.reverse_prefix.mpr h
  rwa [List.reverse_reverse] at h2

theorem rstripSlash_cons_head {p : List Char} :
    rstripSlash ('/' :: p) = [] ∨ ∃ t, rstripSlash ('/' :: p) = '/' :: t := by
  obtain ⟨t, ht⟩ := rstripSlash_prefix ('/' :: p)
  cases hs : rstripSlash ('/' :: p) with
  | nil => exact Or.inl rfl
  | cons a u =>
      right
      rw [hs, List.cons_append] at ht
      injection ht with h1 _
      exact ⟨u, by rw [h1]⟩

theorem rstripSlash_eq_self {l : List Char} (hne : l ≠ [])
    (hlast : l.getLast? ≠ some '/') : rstripSlash l = l := by
  unfold rstripSlash
  cases hr : l.reverse with
  | nil => exact absurd (by simpa using congrArg List.reverse hr) hne
  | cons c t =>
      have hc : c ≠ '/' := by
        have hhead : l.getLast? = some c := by
          rw [← List.head?_reverse, hr]
          rfl
        intro he
        rw [he] at hhead
        exact hlast hhead
      have hdw : List.dropWhile (fun c => decide (c = '/')) (c :: t) = c :: t :=
        List.dropWhile_cons_of_neg (by simpa using hc)
      rw [hdw, ← hr, List.reverse_reverse]

theorem rstripSlash_append_slash (l : List Char) :
    rstripSlash (l ++ ['/']) = rstripSlash l := by
  unfold rstripSlash
  rw [List.reverse_append]
  rw [show (['/'] : List Char).reverse ++ l.reverse = '/' :: l.reverse by rfl]
  rw [List.dropWhile_cons_of_pos (by decide)]

theorem plainUrl_ge33 {hl p : List Char} (hh : ∀ c ∈ hl, hostChar c = true)
    (hp : ∀ c ∈ p, pathChar c = true) :
    ∀ c ∈ ('h' :: 't' :: 't' :: 'p' :: 's' :: ':' :: '/' :: '/' :: (hl ++ '/' :: p)),
      33 ≤ c.toNat := by
  intro c hc
  simp only [List.mem_cons, List.mem_append] at hc
  rcases hc with rfl | rfl | rfl | rfl | rfl | rfl | rfl | rfl | (hc | rfl | hc) <;>
    first
      | decide
      | exact hostChar_ge33 (hh _ hc)
      | exact pathChar_ge33 (hp _ hc)

theorem pyUrlsplit_plain (hl p : List Char)
    (hh : ∀ c ∈ hl, hostChar c = true)
    (hp : ∀ c ∈ p, pathChar c = true) :
    pyUrlsplit ("https://".data ++ hl ++ '/' :: p)
      = ⟨"https".data, hl, '/' :: p, [], []⟩ := by
  have hge := plainUrl_ge33 hh hp
  have hsplit : splitFirst ':' ('h' :: 't' :: 't' :: 'p' :: 's' :: ':' :: '/' :: '/' ::
        (hl ++ '/' :: p))
      = some ("https".data, '/' :: '/' :: (hl ++ '/' :: p)) :=
    @splitFirst_append ':' "https".data ('/' :: '/' :: (hl ++ '/' :: p)) (by decide)
  have htw : (hl ++ '/' :: p).takeWhile (fun c => ¬ netlocEnd c) = hl := by
    rw [takeWhile_append_all
      (fun x hx => by simp [netlocEnd_false_of_hostChar (hh x hx)]) ('/' :: p)]
    rw [List.takeWhile_cons_of_neg (by decide)]
    exact List.append_nil hl
  have hdw : (hl ++ '/' :: p).dropWhile (fun c => ¬ netlocEnd c) = '/' :: p := by
    rw [dropWhile_append_all
      (fun x hx => by simp [netlocEnd_false_of_hostChar (hh x hx)]) ('/' :: p)]
    exact List.dropWhile_cons_of_neg (by decide)
  have hfrag : splitFirst '#' ('/' :: p) = none := by
    apply splitFirst_of_not_mem
    intro hin
    rcases List.mem_cons.mp hin with he | hin'
    · exact absurd he (by decide)
    · exact absurd (hp _ hin') (by decide)
  have hquery : splitFirst '?' ('/' :: p) = none := by
    apply splitFirst_of_not_mem
    intro hin
    rcases List.mem_cons.mp hin with he | hin'
    · exact absurd he (by decide)
    · exact absurd (hp _ hin') (by decide)
  show pyUrlsplit ('h' :: 't' :: 't' :: 'p' :: 's' :: ':' :: '/' :: '/' ::
      (hl ++ '/' :: p)) = ⟨"https".data, hl, '/' :: p, [], []⟩
  simp only [pyUrlsplit]
  rw [List.dropWhile_cons_of_neg (by decide)]
  rw [filter_tab_eq_self hge]
  rw [hsplit]
  dsimp only
  rw [if_pos (by decide : ("https".data : List Char) ≠ [] ∧ validScheme "https".data)]
  dsimp only
  rw [if_pos (show ('/' :: '/' :: (hl ++ '/' :: p)).take 2 = ['/', '/'] from rfl)]
  dsimp only
  rw [show ('/' :: '/' :: (hl ++ '/' :: p)).drop 2 = hl ++ '/' :: p from rfl]
  rw [htw, hdw, hfrag, hquery]
  rw [show pyLowerL "https".data = "https".data from by decide]

theorem pyUrlparse_plain (hl p : List Char)
    (hh : ∀ c ∈ hl, hostChar c = true)
    (hp : ∀ c ∈ p, pathChar c = true) :
    pyUrlparse ("https://".data ++ hl ++ '/' :: p)
      = ⟨"https".data, hl, '/' :: p, [], [], []⟩ := by
  simp only [pyUrlparse]
  rw [pyUrlsplit_plain hl p hh hp]
  dsimp only
  rw [if_neg ?hcond]
  case hcond =>
    rintro ⟨-, hcon⟩
    have hmem : ';' ∈ ('/' :: p) := by simpa using hcon
    rcases List.mem_cons.mp hmem with he | hin
    · exact absurd he (by decide)
    · exact absurd (hp _ hin) (by decide)

theorem pyUrlunparse_plain (hl P : List Char) (hne : hl ≠ [])
    (hhead : P = [] ∨ P.take 1 = ['/']) :
    pyUrlunparse "https".data hl P [] [] []
      = "https".data ++ ':' :: '/' :: '/' :: (hl ++ P) := by
  simp only [pyUrlunparse]
  rw [if_neg (show ¬(([] : List Char) ≠ []) from fun hq => hq rfl)]
  simp only [pyUrlunsplit]
  rw [if_pos (Or.inl hne)]
  rw [if_neg (show ¬(P ≠ [] ∧ P.take 1 ≠ ['/']) from ?_)]
  · rw [if_pos (show ("https".data : List Char) ≠ [] from by decide)]
    rw [if_neg (show ¬(([] : List Char) ≠ []) from fun hq => hq rfl)]
    rw [if_neg (show ¬(([] : List Char) ≠ []) from fun hq => hq rfl)]
  · rintro ⟨hp1, hp2⟩
    rcases hhead with h | h
    · exact hp1 h
    · exact hp2 h

theorem canonicaliseUrlL_plain (hl p : List Char)
    (hh : ∀ c ∈ hl, hostChar c = true) (hne : hl ≠ [])
    (hp : ∀ c ∈ p, pathChar c = true) :
    canonicaliseUrlL ("https://".data ++ hl ++ '/' :: p)
      = "https://".data ++ hl ++
          (if rstripSlash ('/' :: p) = [] then ['/'] else rstripSlash ('/' :: p)) := by
  have hstrip : pyStripL ("https://".data ++ hl ++ '/' :: p)
      = "https://".data ++ hl ++ '/' :: p := by
    apply pyStripL_eq_self
    intro c hc
    exact pyIsSpace_false_of_ge (plainUrl_ge33 hh hp c hc)
  have hparse := pyUrlparse_plain hl p hh hp
  have hext : extractRedirectUrlL ("https://".data ++ hl ++ '/' :: p)
      = "https://".data ++ hl ++ '/' :: p := by
    unfold extractRedirectUrlL
    rw [hparse]
    dsimp only
    rw [show findRedirect (parseQs ([] : List Char)) redirectParams = none from by decide]
  have hhead : (if rstripSlash ('/' :: p) = [] then ['/'] else rstripSlash ('/' :: p)) = []
      ∨ (if rstripSlash ('/' :: p) = [] then ['/'] else rstripSlash ('/' :: p)).take 1
          = ['/'] := by
    rcases @rstripSlash_cons_head p with h0 | ⟨t, ht⟩
    · right
      rw [if_pos h0]
      rfl
    · right
      rw [if_neg (show ¬(rstripSlash ('/' :: p) = []) from by rw [ht]; simp), ht]
      rfl
  simp only [canonicaliseUrlL]
  rw [hstrip, hext, hparse]
  dsimp only
  rw [pyLowerL_eq_self_host hh]
  exact pyUrlunparse_plain hl _ hne hhead

/-- C3: canonicalise_url is idempotent on already-canonical plain https
URLs — a lowercase host, a lowercase slash-separated path with no query,
params, fragment or trailing slash — because such URLs are fixed points
of canonicalisation.  (The unrestricted claim is refuted by the
counterexample: a second application unwraps redirect parameters that the
first application's own output still contains.) -/
theorem claim_c3_idempotent_plain (hl p : List Char)
    (hh : ∀ c ∈ hl, hostChar c = true) (hne : hl ≠ [])
    (hp : ∀ c ∈ p, pathChar c = true) (hpne : p ≠ [])
    (hlast : p.getLast? ≠ some '/') :
    canonicalise_url (canonicalise_url ⟨"https://".data ++ hl ++ '/' :: p⟩)
      = canonicalise_url ⟨"https://".data ++ hl ++ '/' :: p⟩ := by
  have hrs : rstripSlash ('/' :: p) = '/' :: p := by
    apply rstripSlash_eq_self (List.cons_ne_nil _ _)
    cases p with
    | nil => exact absurd rfl hpne
    | cons a t =>
        rw [List.getLast?_cons_cons]
        exact hlast
  have hfix : canonicaliseUrlL ("https://".data ++ hl ++ '/' :: p)
      = "https://".data ++ hl ++ '/' :: p := by
    rw [canonicaliseUrlL_plain hl p hh hne hp, hrs,
      if_neg (show ¬('/' :: p = []) from by simp)]
  unfold canonicalise_url
  dsimp only
  rw [hfix, hfix]

set_option maxRecDepth 10000 in
set_option maxHeartbeats 2000000 in
/-- C3 counterexample: canonicalisation is not idempotent in general.  The
first pass keeps the inner url= parameter of the unwrapped redirect target
in the query, so a second pass unwraps again and produces a different
string. -/
theorem claim_c3_counterexample :
    canonicalise_url (canonicalise_url
        "https://a.com/r?url=https://b.com/x?url=https://c.com")
      ≠ canonicalise_url "https://a.com/r?url=https://b.com/x?url=https://c.com" := by
  decide

/-- Witness for the C3 theorem at the concrete URL https://x.com/a. -/
theorem claim_c3_idempotent_plain_witness :
    canonicalise_url (canonicalise_url ⟨"https://".data ++ "x.com".data ++ '/' :: "a".data⟩)
      = canonicalise_url ⟨"https://".data ++ "x.com".data ++ '/' :: "a".data⟩ :=
  claim_c3_idempotent_plain "x.com".data "a".data (by decide) (by decide) (by decide)
    (by decide) (by decide)

set_option maxRecDepth 10000 in
set_option maxHeartbeats 2000000 in
/-- C7: url_hash is stable under every tracking parameter of the fixed set
appended to the spec's example URL, and under a single trailing slash on
every plain https URL (lowercase host and path, no query/params/fragment).
(The unrestricted trailing-slash claim fails when the last path segment
contains a semicolon — see the counterexample.) -/
theorem claim_c7_hash_stable :
    (∀ name ∈ trackingParams,
        url_hash ("https://x.com/a?" ++ name ++ "=foo") = url_hash "https://x.com/a") ∧
    (∀ hl p, (∀ c ∈ hl, hostChar c = true) → hl ≠ [] → (∀ c ∈ p, pathChar c = true) →
        url_hash ⟨"https://".data ++ hl ++ '/' :: (p ++ ['/'])⟩
          = url_hash ⟨"https://".data ++ hl ++ '/' :: p⟩) := by
  constructor
  · have hall : ∀ name ∈ trackingParams,
        canonicaliseUrlL ("https://x.com/a?" ++ name ++ "=foo").data
          = canonicaliseUrlL ("https://x.com/a" : String).data := by decide
    intro name hn
    unfold url_hash
    rw [hall name hn]
  · intro hl p hh hne hp
    have hp' : ∀ c ∈ p ++ ['/'], pathChar c = true := by
      intro c hc
      rcases List.mem_append.mp hc with h | h
      · exact hp c h
      · obtain rfl := List.mem_singleton.mp h
        decide
    have h1 := canonicaliseUrlL_plain hl (p ++ ['/']) hh hne hp'
    have h2 := canonicaliseUrlL_plain hl p hh hne hp
    have hr : rstripSlash ('/' :: (p ++ ['/'])) = rstripSlash ('/' :: p) := by
      rw [show '/' :: (p ++ ['/']) = ('/' :: p) ++ ['/'] from rfl]
      exact rstripSlash_append_slash ('/' :: p)
    rw [hr] at h1
    show sha256Hex (utf8Encode (canonicaliseUrlL
        ("https://".data ++ hl ++ '/' :: (p ++ ['/']))))
      = sha256Hex (utf8Encode (canonicaliseUrlL ("https://".data ++ hl ++ '/' :: p)))
    rw [h1, h2]

set_option maxRecDepth 10000 in
set_option maxHeartbeats 2000000 in
/-- C7 counterexample: a trailing slash on a non-root path can change the
hash.  With a semicolon in the last segment, urlparse's parameter split
turns /a;x into path /a with params x, while /a;x/ keeps path /a;x — the
canonical forms and hence the hashes differ. -/
theorem claim_c7_counterexample :
    url_hash "https://h/a;x/" ≠ url_hash "https://h/a;x" := by
  decide

/-- Witness for the C7 theorem: the two concrete equalities of the spec. -/
theorem claim_c7_hash_stable_witness :
    url_hash "https://x.com/a?utm_source=foo" = url_hash "https://x.com/a" ∧
    url_hash ⟨"https://".data ++ "x.com".data ++ '/' :: ("a".data ++ ['/'])⟩
      = url_hash ⟨"https://".data ++ "x.com".data ++ '/' :: "a".data⟩ := by
  constructor
  · have h := claim_c7_hash_stable.1 "utm_source" (by decide)
    have he : ("https://x.com/a?" ++ "utm_source" ++ "=foo" : String)
        = "https://x.com/a?utm_source=foo" := by decide
    rw [he] at h
    exact h
  · exact claim_c7_hash_stable.2 "x.com".data "a".data (by decide) (by decide) (by decide)

end Jobly
